import Mathlib

/-!
# mishell: tokenizer, pipeline splitter, pipeline orchestrator and profiler

A shallow embedding of `src/mishell.c`.  C strings are modelled as `List Char`
(the characters before the terminating NUL), pointers into a string as the
suffix of the list they point at.
-/

namespace Mishell

/-! ## Constants and character classes -/

/-- Size of the line buffer, `#define MAX_LINE 4096`. -/
def MAX_LINE : Nat := 4096

/-- Number of slots of the argument array, `#define MAX_ARGS 256`. -/
def MAX_ARGS : Nat := 256

/-- Number of slots of `char *cmds[128]` in `main`. -/
def MAX_CMDS : Nat := 128

/-- The single quote character. -/
def SQUOTE : Char := Char.ofNat 39

/-- The double quote character. -/
def DQUOTE : Char := Char.ofNat 34

/-- The horizontal tab character. -/
def TAB : Char := Char.ofNat 9

/-- The line feed character. -/
def LF : Char := Char.ofNat 10

/-- The carriage return character. -/
def CR : Char := Char.ofNat 13

/-- The pipeline delimiter. -/
def BAR : Char := Char.ofNat 124

/-- The test `*p==' ' || *p=='\t'` of `split_args`. -/
def isBlank (c : Char) : Bool := c == ' ' || c == TAB

/-- The test `*p == '\'' || *p == '"'` of `split_args`. -/
def isQuote (c : Char) : Bool := c == SQUOTE || c == DQUOTE

/-- The test `*s==' '||*s=='\t'||*s=='\n'||*s=='\r1` of `trim`. -/
def isTrimSpace (c : Char) : Bool := c == ' ' || c == TAB || c == LF || c == CR

/-- The C library predicate `isspace` in the C locale: space, tab, line feed,
vertical tab, form feed and carriage return. -/
def isSpaceC (c : Char) : Bool := c == ' ' || (9 ≤ c.toNat && c.toNat ≤ 13)

/-- The vertical tab character, white space that `trim` does not remove. -/
def VT : Char := Char.ofNat 11

/-! ## `trim` -/

/-- The loop `while(*s && isTrimSpace(*s)) s++;` of `trim`. -/
def skipTrimSpace : List Char → List Char
  | [] => []
  | c :: cs => if isTrimSpace c then skipTrimSpace cs else c :: cs

/-- The loop `while(end > s && isTrimSpace(*end)) { *end = 0; end--; }` of `trim`;
the second argument is the offset `end - s`.  The result is the string that `s`
points at when the loop stops, that is the characters at offsets `0 .. end`. -/
def trimEnd (s : List Char) : Nat → List Char
  | 0 => s.take 1
  | e + 1 => if isTrimSpace (s.getD (e + 1) (Char.ofNat 0)) then trimEnd s e else s.take (e + 2)

/-- The function `trim`. -/
def trim (s : List Char) : List Char :=
  match skipTrimSpace s with
  | [] => []
  | c :: cs => trimEnd (c :: cs) ((c :: cs).length - 1)

/-! ## `split_args` -/

deriving instance DecidableEq for Except

/-- What goes wrong in a run of the model. -/
inductive Fault where
  /-- A store into the argument array at an index that is not below `MAX_ARGS`. -/
  | outOfBounds (index : Nat)
  /-- The loop bound of the model was reached (this never happens: the bound
  exceeds the length of the string and every turn of the loop consumes a character). -/
  | fuel
  deriving DecidableEq, Repr

/-- The loop `while (*p && (*p==' ' || *p=='\t')) p++;`. -/
def skipBlanks : List Char → List Char
  | [] => []
  | c :: cs => if isBlank c then skipBlanks cs else c :: cs

/-- The loop `while (*p && *p != quote) p++;`: the characters passed over and
the position where it stops. -/
def scanQuoted (quote : Char) : List Char → List Char × List Char
  | [] => ([], [])
  | c :: cs =>
    if c != quote then ((c :: (scanQuoted quote cs).1), (scanQuoted quote cs).2)
    else ([], c :: cs)

/-- The loop `while (*p && *p != ' ' && *p != '\t') p++;`: the characters passed
over and the position where it stops. -/
def scanWord : List Char → List Char × List Char
  | [] => ([], [])
  | c :: cs =>
    if !isBlank c then ((c :: (scanWord cs).1), (scanWord cs).2)
    else ([], c :: cs)

/-- The statement `if (*p) p++;`. -/
def advance : List Char → List Char
  | [] => []
  | _ :: cs => cs

/-- The store `argv[argc] = NULL` after the loop of `split_args`. -/
def storeNull (argv : List (List Char)) : Except Fault (List (List Char)) :=
  if argv.length < MAX_ARGS then .ok argv else .error (.outOfBounds argv.length)

/-- The main loop of `split_args`; `argv` holds the tokens stored so far, so
`argc = argv.length`. -/
def split_args_loop : Nat → List Char → List (List Char) → Except Fault (List (List Char))
  | 0, _, _ => .error .fuel
  | fuel + 1, p, argv =>
    match skipBlanks p with
    | [] => storeNull argv
    | c :: rest =>
      let scanned := if isQuote c then scanQuoted c rest else scanWord (c :: rest)
      if argv.length < MAX_ARGS then
        split_args_loop fuel (advance scanned.2) (argv ++ [scanned.1])
      else .error (.outOfBounds argv.length)

/-- The function `split_args`: the tokens stored in the argument array, or the
first out-of-bounds store. -/
def split_args (cmd : List Char) : Except Fault (List (List Char)) :=
  split_args_loop (cmd.length + 1) cmd []

/-- All characters of a string are blanks (space or tab). -/
@[reducible] def AllBlank (s : List Char) : Prop := ∀ c ∈ s, isBlank c = true

/-- The lexical structure of a command string as the tokenizer1s contract
describes it: blanks separate tokens, a token that starts with a quote runs to
the next occurrence of the same quote (or to the end of the string when there is
none) and loses its delimiters, any other token is a maximal run of non-blank
characters. -/
inductive Lex : List Char → List (List Char) → Prop where
  | done (bl : List Char) (hbl : AllBlank bl) : Lex bl []
  | quoted (bl : List Char) (q : Char) (body rest : List Char) (toks : List (List Char))
      (hbl : AllBlank bl) (hq : isQuote q = true) (hbody : q ∉ body) (h : Lex rest toks) :
      Lex (bl ++ q :: (body ++ q :: rest)) (body :: toks)
  | openQuote (bl : List Char) (q : Char) (body : List Char)
      (hbl : AllBlank bl) (hq : isQuote q = true) (hbody : q ∉ body) :
      Lex (bl ++ q :: body) [body]
  | word (bl : List Char) (c : Char) (w : List Char) (b : Char) (rest : List Char)
      (toks : List (List Char))
      (hbl : AllBlank bl) (hc : isBlank c = false) (hcq : isQuote c = false)
      (hw : ∀ x ∈ w, isBlank x = false) (hb : isBlank b = true) (h : Lex rest toks) :
      Lex (bl ++ c :: (w ++ b :: rest)) ((c :: w) :: toks)
  | lastWord (bl : List Char) (c : Char) (w : List Char)
      (hbl : AllBlank bl) (hc : isBlank c = false) (hcq : isQuote c = false)
      (hw : ∀ x ∈ w, isBlank x = false) :
      Lex (bl ++ c :: w) [c :: w]

/-- A line of `n + 1` one-letter words separated by single spaces. -/
def wordsLine : Nat → List Char
  | 0 => ['a']
  | n + 1 => 'a' :: ' ' :: wordsLine n

/-! ## The pipeline splitter of `main` -/

/-- The first phase of `strtok_r`: skip the leading delimiters.  The C library
function, modelled after its POSIX description, for a single delimiter. -/
def skipDelims (d : Char) : List Char → List Char
  | [] => []
  | c :: cs => if c == d then skipDelims d cs else c :: cs

/-- The second phase of `strtok_r`: scan to the next delimiter or to the end of
the string; the token and the position where the scan stops. -/
def scanToken (d : Char) : List Char → List Char × List Char
  | [] => ([], [])
  | c :: cs =>
    if c != d then ((c :: (scanToken d cs).1), (scanToken d cs).2)
    else ([], c :: cs)

/-- The C library function `strtok_r(s, delim, &saveptr)` for a single
delimiter: `none` for a NULL result, else the token and the new `saveptr` (the
delimiter that ends the token is overwritten by NUL and stepped over). -/
def strtok_r (d : Char) (s : List Char) : Option (List Char × List Char) :=
  match skipDelims d s with
  | [] => none
  | c :: cs => some ((scanToken d (c :: cs)).1, advance (scanToken d (c :: cs)).2)

/-- The loop `while (token && ncmds < 128) { cmds[ncmds++] = trim(token);
token = strtok_r(NULL, "|", &saveptr); }` of `main`; `cmds` holds the stages
stored so far, so `ncmds = cmds.length`.  The loop condition bounds the number
of iterations by 128. -/
def stagesLoop : Nat → Option (List Char × List Char) → List (List Char) → List (List Char)
  | 0, _, cmds => cmds
  | fuel + 1, token, cmds =>
    match token with
    | none => cmds
    | some (tok, saveptr) =>
      if cmds.length < MAX_CMDS then stagesLoop fuel (strtok_r BAR saveptr) (cmds ++ [trim tok])
      else cmds

/-- Lines 272 and 279-286 of `main`: the stage strings `cmds[0 .. ncmds-1]` for
an input line. -/
def mainStages (line : List Char) : List (List Char) :=
  stagesLoop (MAX_CMDS + 1) (strtok_r BAR (trim line)) []

/-- What one turn of the loop of `main` does with a line. -/
inductive LineAction where
  /-- The statement `continue`: an empty line. -/
  | skip
  /-- The statement `break`: the line `exit`. -/
  | exit
  /-- A single stage: `split_args` is called on it. -/
  | single (cmd : List Char)
  /-- Two stages or more: `execute_pipeline(cmds, ncmds)`. -/
  | pipeline (cmds : List (List Char))
  deriving DecidableEq, Repr

/-- Lines 272-290 and 336-338 of `main`: the dispatch on the number of stages. -/
def mainLine (line : List Char) : LineAction :=
  if trim line = [] then .skip
  else if trim line = ['e', 'x', 'i', 't'] then .exit
  else
    match mainStages line with
    | [] => .skip
    | [cmd] => .single cmd
    | cmds => .pipeline cmds

/-- A string that `main` can hold in its line buffer: at most `MAX_LINE - 1`
characters, none of them NUL. -/
@[reducible] def InputLine (line : List Char) : Prop :=
  line.length ≤ MAX_LINE - 1 ∧ Char.ofNat 0 ∉ line

/-- Removing from both ends of a string the characters of a class, written with
library functions; it does not depend on `trim`. -/
def stripWith (p : Char → Bool) (s : List Char) : List Char :=
  ((s.dropWhile p).reverse.dropWhile p).reverse

/-- The four characters space, tab, line feed and carriage return, written out. -/
def isStageSpace (c : Char) : Bool :=
  c == ' ' || c == Char.ofNat 9 || c == Char.ofNat 10 || c == Char.ofNat 13

/-- A string with its leading and trailing spaces, tabs, line feeds and
carriage returns removed. -/
def stripSpaces (s : List Char) : List Char := stripWith isStageSpace s

/-- The splitting the interface description asks for: the pieces of a string
between the delimiters that lie outside a quoted section; the first argument is
the quote character of the section the scan is in, if any. -/
def splitUnquoted : Option Char → List Char → List (List Char)
  | _, [] => [[]]
  | none, c :: cs =>
    if c == '|' then [] :: splitUnquoted none cs
    else (splitUnquoted (if isQuote c then some c else none) cs).modifyHead (c :: ·)
  | some q, c :: cs =>
    (splitUnquoted (if c == q then none else some q) cs).modifyHead (c :: ·)

/-- The stages the interface description asks for: the line split exactly at
the unquoted delimiters, each piece without leading or trailing white space. -/
def stagesUnquoted (line : List Char) : List (List Char) :=
  (splitUnquoted none (stripWith isSpaceC line)).map (stripWith isSpaceC)

/-- A string neither starts nor ends with a space, tab, line feed or carriage
return. -/
def Trimmed (s : List Char) : Prop :=
  (∀ c, s.head? = some c → isStageSpace c = false) ∧
  (∀ c, s.getLast? = some c → isStageSpace c = false)

/-- A line of `n + 1` one-letter stages separated by single delimiters. -/
def barsLine : Nat → List Char
  | 0 => ['a']
  | n + 1 => 'a' :: '|' :: barsLine n

/-! ## `strtol` and the narrowing to `int` -/

/-- The largest value of a 64-bit `long`. -/
def LONG_MAX : Int := 2 ^ 63 - 1

/-- The smallest value of a 64-bit `long`. -/
def LONG_MIN : Int := -(2 ^ 63)

/-- A decimal digit. -/
def isDigitC (c : Char) : Bool := 48 ≤ c.toNat && c.toNat ≤ 57

/-- The white space that `strtol` skips first. -/
def skipSpaceC : List Char → List Char
  | [] => []
  | c :: cs => if isSpaceC c then skipSpaceC cs else c :: cs

/-- The digits that `strtol` converts: the value accumulated so far and the
position of the first character that is not a digit. -/
def scanDigits : List Char → Nat → Nat × List Char
  | [] , acc => (acc, [])
  | c :: cs, acc => if isDigitC c then scanDigits cs (10 * acc + (c.toNat - 48)) else (acc, c :: cs)

/-- The value `strtol` returns for a mathematical result: out-of-range results
are replaced by `LONG_MAX` or `LONG_MIN`. -/
def clampLong (v : Int) : Int :=
  if v > LONG_MAX then LONG_MAX else if v < LONG_MIN then LONG_MIN else v

/-- The C library function `strtol(nptr, &endptr, 10)` for a 64-bit `long`,
modelled after its ISO C description: the value returned and the string that
`endptr` is left pointing at.  With no digits to convert the value is 0 and
`endptr` is `nptr`. -/
def strtol (nptr : List Char) : Int × List Char :=
  let signed : Bool × List Char :=
    match skipSpaceC nptr with
    | c :: cs => if c == '-' then (true, cs) else if c == '+' then (false, cs) else (false, c :: cs)
    | [] => (false, [])
  match signed.2 with
  | [] => (0, nptr)
  | c :: cs =>
    if isDigitC c then
      let scanned := scanDigits (c :: cs) 0
      (clampLong (if signed.1 then -(scanned.1 : Int) else (scanned.1 : Int)), scanned.2)
    else (0, nptr)

/-- The conversion `(int)secs` of a `long` to a 32-bit `int` (the value is
reduced modulo `2^32` into the range of `int`). -/
def toInt32 (x : Int) : Int := (x + 2 ^ 31) % 2 ^ 32 - 2 ^ 31

/-! ## `execute_and_profile` and `handle_miprof` -/

/-- The messages the profiler writes to the error stream. -/
inductive ErrMsg where
  | usage
  | ejecNoCommand
  | ejecsaveNoFile
  | ejecsaveNoCommand
  | maxtiempoNoSeconds
  | maxtiempoBadSeconds
  | maxtiempoNoCommand
  | unknownOption (name : List Char)
  | perrorClock
  | perrorFork
  | perrorWait4
  | perrorFopen
  deriving DecidableEq, Repr

/-- What the shell process does that is visible outside it, in program order. -/
inductive Event where
  /-- A message on the error stream (`fprintf(stderr, ...)` or `perror`). -/
  | stderr (msg : ErrMsg)
  /-- A call `clock_gettime(CLOCK_MONOTONIC, ...)`. -/
  | clock
  /-- A call of `fork()` to run the command `argv`. -/
  | fork (argv : List (List Char))
  /-- An assignment to the global `child_to_kill`. -/
  | setTarget (pid : Nat)
  /-- The call `sigaction(SIGALRM, &sa, NULL)`. -/
  | sigaction
  /-- A call `alarm(seconds)`. -/
  | alarm (seconds : Nat)
  /-- A call `wait4(pid, ...)`. -/
  | wait4 (pid : Nat)
  /-- A call `fopen(file, "a")`. -/
  | fopen (file : List Char)
  /-- One record written to the log file, followed by `fflush`. -/
  | logRecord (argv : List (List Char))
  /-- The call `fclose(fp)`. -/
  | fclose
  /-- The report `real/user/sys/maxrss` printed to standard output; the flag
  tells whether the variables printed were assigned by `execute_and_profile`. -/
  | report (assigned : Bool)
  deriving DecidableEq, Repr

/-- The outcomes of the system calls of one profiling invocation, as the shell
process sees them. -/
structure ProfOS where
  /-- Both calls of `clock_gettime` succeed. -/
  clockOk : Bool
  /-- The pid that `fork` returns to the shell (positive), or `none` for `-1`. -/
  forkResult : Option Nat
  /-- The call of `wait4` succeeds. -/
  waitOk : Bool
  /-- The wait status that `wait4` stores. -/
  waitStatus : Int
  /-- The call of `fopen` succeeds. -/
  fopenOk : Bool

/-- What `execute_and_profile` hands back to its caller. -/
structure ProfResult where
  /-- The value returned. -/
  status : Int
  /-- The output parameters `*real_seconds` and `*maxrss_out` were assigned. -/
  assigned : Bool
  /-- The events of the call. -/
  events : List Event
  deriving DecidableEq, Repr

/-- The function `execute_and_profile`, followed in the shell process (the
child's branch ends in `execvp` or `_exit` and never returns into the shell's
code); `save_fp` tells whether a log file was passed. -/
def execute_and_profile (os : ProfOS) (argv : List (List Char)) (timeout_seconds : Int)
    (save_fp : Bool) : ProfResult :=
  let start : List Event := .clock :: (if os.clockOk then [] else [.stderr .perrorClock])
  match os.forkResult with
  | none =>
    { status := -1, assigned := false, events := start ++ [.fork argv, .stderr .perrorFork] }
  | some pid =>
    { status := if os.waitOk then os.waitStatus else -1
      assigned := true
      events :=
        start ++ [.fork argv, .setTarget pid, .sigaction]
          ++ (if timeout_seconds > 0 then [.alarm timeout_seconds.toNat] else [])
          ++ [.wait4 pid] ++ (if os.waitOk then [] else [.stderr .perrorWait4])
          ++ [.alarm 0, .setTarget 0]
          ++ (.clock :: (if os.clockOk then [] else [.stderr .perrorClock]))
          ++ (if save_fp then [.logRecord argv] else []) }

/-- The sub-command `ejec`. -/
def EJEC : List Char := ['e', 'j', 'e', 'c']

/-- The sub-command `ejecsave`. -/
def EJECSAVE : List Char := ['e', 'j', 'e', 'c', 's', 'a', 'v', 'e']

/-- The sub-command `maxtiempo`. -/
def MAXTIEMPO : List Char := ['m', 'a', 'x', 't', 'i', 'e', 'm', 'p', 'o']

/-- The function `handle_miprof`: the events of one call on the argument vector
`argv` (the tokens after `miprof`). -/
def handle_miprof (os : ProfOS) (argv : List (List Char)) : List Event :=
  match argv with
  | [] => [.stderr .usage]
  | sub :: rest =>
    if sub = EJEC then
      match rest with
      | [] => [.stderr .ejecNoCommand]
      | cmd :: args =>
        let r := execute_and_profile os (cmd :: args) 0 false
        r.events ++ [.report r.assigned]
    else if sub = EJECSAVE then
      match rest with
      | [] => [.stderr .ejecsaveNoFile]
      | [_] => [.stderr .ejecsaveNoCommand]
      | filename :: cmd :: args =>
        if os.fopenOk then
          let r := execute_and_profile os (cmd :: args) 0 true
          .fopen filename :: (r.events ++ [.report r.assigned, .fclose])
        else [.fopen filename, .stderr .perrorFopen]
    else if sub = MAXTIEMPO then
      match rest with
      | [] => [.stderr .maxtiempoNoSeconds]
      | secs :: more =>
        if (strtol secs).2 ≠ [] ∨ (strtol secs).1 ≤ 0 then [.stderr .maxtiempoBadSeconds]
        else
          match more with
          | [] => [.stderr .maxtiempoNoCommand]
          | cmd :: args =>
            let r := execute_and_profile os (cmd :: args) (toInt32 (strtol secs).1) false
            r.events ++ [.report r.assigned]
    else [.stderr (.unknownOption sub)]

/-- A seconds argument that the validation of `maxtiempo` accepts: `strtol`
parses the whole string and the value is positive. -/
@[reducible] def ValidSeconds (secs : List Char) : Prop :=
  (strtol secs).2 = [] ∧ 0 < (strtol secs).1

/-- The malformed argument vectors of `miprof`, as the interface description
lists them. -/
inductive Malformed : List (List Char) → Prop where
  | noSubcommand : Malformed []
  | ejecNoCommand : Malformed [EJEC]
  | ejecsaveNoFile : Malformed [EJECSAVE]
  | ejecsaveNoCommand (file : List Char) : Malformed [EJECSAVE, file]
  | maxtiempoNoSeconds : Malformed [MAXTIEMPO]
  | maxtiempoBadSeconds (secs : List Char) (rest : List (List Char)) (h : ¬ ValidSeconds secs) :
      Malformed (MAXTIEMPO :: secs :: rest)
  | maxtiempoNoCommand (secs : List Char) : Malformed [MAXTIEMPO, secs]
  | unknownSubcommand (sub : List Char) (rest : List (List Char))
      (h : sub ≠ EJEC ∧ sub ≠ EJECSAVE ∧ sub ≠ MAXTIEMPO) : Malformed (sub :: rest)

/-- An event that is part of running a command or of producing a report:
everything but a message on the error stream. -/
def Event.isExecution : Event → Bool
  | .stderr _ => false
  | _ => true

/-! ## The timeout: `on_sigalrm` against the parent's branch of `execute_and_profile` -/

/-- The statements of the parent's branch of `execute_and_profile` (lines
90-106) that touch the timeout; each value names the statement to run next. -/
inductive PC where
  /-- The assignment `child_to_kill = pid`. -/
  | setTarget
  /-- The call `sigaction(SIGALRM, &sa, NULL)`. -/
  | sigaction
  /-- The statement `if (timeout_seconds > 0) alarm(timeout_seconds)`. -/
  | alarm
  /-- The call `wait4(pid, ...)`, which blocks until the child has terminated. -/
  | wait4
  /-- The call `alarm(0)`. -/
  | cancel
  /-- The assignment `child_to_kill = 0`. -/
  | clearTarget
  /-- Past line 106. -/
  | done
  deriving DecidableEq, Repr

/-- The state of one profiling invocation with its timer. -/
structure TState where
  /-- The next statement of the parent. -/
  pc : PC
  /-- The global `child_to_kill`. -/
  child_to_kill : Nat
  /-- An alarm is pending: armed and neither delivered nor cancelled. -/
  alarmPending : Bool
  /-- The child has terminated. -/
  childExited : Bool
  /-- The call of `wait4` has returned: the child is reaped, its pid is free. -/
  reaped : Bool
  /-- The calls `kill(pid, SIGKILL)` made so far, each with the flag whether
  the pid had already been reaped when the signal was sent. -/
  kills : List (Nat × Bool)
  deriving DecidableEq, Repr

/-- The state right after `fork` has returned `pid` to the parent. -/
def TState.init : TState :=
  { pc := .setTarget, child_to_kill := 0, alarmPending := false, childExited := false,
    reaped := false, kills := [] }

/-- The handler `on_sigalrm`: `if (child_to_kill > 0) kill(child_to_kill, SIGKILL);`.
A kill that reaches a child that still runs terminates it. -/
def on_sigalrm (s : TState) : TState :=
  if s.child_to_kill > 0 then
    { s with kills := s.kills ++ [(s.child_to_kill, s.reaped)]
             childExited := s.childExited || !s.reaped }
  else s

/-- What can happen next. -/
inductive Action where
  /-- The parent runs its next statement. -/
  | parent
  /-- The child terminates by itself. -/
  | childExit
  /-- The pending alarm expires and `SIGALRM` is delivered to the parent. -/
  | sigalrm
  deriving DecidableEq, Repr

/-- One step of the system; `none` when the action cannot happen in the state
(`wait4` blocks while the child runs, an alarm is delivered only while pending). -/
def step (pid : Nat) (timeout_seconds : Int) : Action → TState → Option TState
  | .parent, s =>
    match s.pc with
    | .setTarget => some { s with child_to_kill := pid, pc := .sigaction }
    | .sigaction => some { s with pc := .alarm }
    | .alarm =>
      if timeout_seconds > 0 then some { s with alarmPending := true, pc := .wait4 }
      else some { s with pc := .wait4 }
    | .wait4 => if s.childExited then some { s with reaped := true, pc := .cancel } else none
    | .cancel => some { s with alarmPending := false, pc := .clearTarget }
    | .clearTarget => some { s with child_to_kill := 0, pc := .done }
    | .done => none
  | .childExit, s => if s.childExited then none else some { s with childExited := true }
  | .sigalrm, s => if s.alarmPending then some (on_sigalrm { s with alarmPending := false }) else none

/-- The state after a sequence of actions, `none` when one of them cannot happen. -/
def run (pid : Nat) (timeout_seconds : Int) : List Action → TState → Option TState
  | [], s => some s
  | a :: rest, s =>
    match step pid timeout_seconds a s with
    | none => none
    | some s' => run pid timeout_seconds rest s'

/-! ## `execute_pipeline` -/

/-- What an open descriptor refers to. -/
inductive Res where
  /-- An open file the shell held before the call. -/
  | inherited (n : Nat)
  /-- The read end of the pipe allocated for the given stage. -/
  | pipeRead (stage : Nat)
  /-- The write end of the pipe allocated for the given stage. -/
  | pipeWrite (stage : Nat)
  deriving DecidableEq, Repr

/-- A descriptor table of a process. -/
abbrev FdTable := List (Nat × Res)

/-- The descriptor is open in the table. -/
def isOpen (t : FdTable) (fd : Nat) : Bool := t.any (fun e => e.1 == fd)

/-- The lowest descriptor that is not open, the one the kernel hands out next. -/
def lowestFree (t : FdTable) : Nat :=
  ((List.range (t.length + 1)).find? (fun fd => !isOpen t fd)).getD t.length

/-- The system call `close(fd)`: the new table and whether the call succeeded
(it fails with EBADF on a descriptor that is not open). -/
def sysClose (t : FdTable) (fd : Nat) : FdTable × Bool :=
  if isOpen t fd then (t.filter (fun e => e.1 != fd), true) else (t, false)

/-- The system call `dup2(oldfd, newfd)`. -/
def sysDup2 (t : FdTable) (oldfd newfd : Nat) : FdTable :=
  match t.lookup oldfd with
  | none => t
  | some r => if oldfd = newfd then t else (newfd, r) :: t.filter (fun e => e.1 != newfd)

/-- A successful system call `pipe(pipefd)` for the given stage: the new table,
`pipefd[0]` and `pipefd[1]`. -/
def sysPipe (t : FdTable) (stage : Nat) : FdTable × Nat × Nat :=
  let r := lowestFree t
  let t1 := t ++ [(r, Res.pipeRead stage)]
  let w := lowestFree t1
  (t1 ++ [(w, Res.pipeWrite stage)], r, w)

/-- The outcomes of the system calls of one call of `execute_pipeline`; each
stage calls `pipe` and `fork` at most once. -/
structure PipeOS where
  /-- The call of `pipe` at the given stage succeeds. -/
  pipeOk : Nat → Bool
  /-- The pid that `fork` returns to the shell at the given stage (positive),
  or `none` for `-1`. -/
  forkResult : Nat → Option Nat

/-- A child process at the moment it calls `execvp`. -/
structure ChildProc where
  /-- The stage it runs. -/
  stage : Nat
  /-- Its process id. -/
  pid : Nat
  /-- The argument vector passed to `execvp`. -/
  argv : List (List Char)
  /-- Its descriptor table. -/
  fds : FdTable
  deriving DecidableEq, Repr

/-- The state of the shell process inside `execute_pipeline`. -/
structure PipeState where
  /-- The descriptor table of the shell. -/
  fds : FdTable
  /-- The variable `in_fd`; `none` stands for `-1`. -/
  in_fd : Option Nat
  /-- The array `pids`; `none` is a slot that was never assigned (the array comes
  from `malloc`, so its value is indeterminate). -/
  pids : List (Option Nat)
  /-- The children created so far, in creation order. -/
  children : List ChildProc
  /-- The descriptors passed to a `close` that failed because they were not open. -/
  badCloses : List Nat
  deriving DecidableEq, Repr

/-- The statement `close(fd)` in the shell process. -/
def PipeState.close (st : PipeState) (fd : Nat) : PipeState :=
  if (sysClose st.fds fd).2 then { st with fds := (sysClose st.fds fd).1 }
  else { st with badCloses := st.badCloses ++ [fd] }

/-- Lines 149-157: what the child does to its copy of the descriptor table
before `execvp`. -/
def childTable (t : FdTable) (in_fd : Option Nat) (pipefd : Option (Nat × Nat)) : FdTable :=
  let t1 :=
    match in_fd with
    | none => t
    | some fd => (sysClose (sysDup2 t fd 0) fd).1
  match pipefd with
  | none => t1
  | some (r, w) => (sysClose (sysDup2 (sysClose t1 r).1 w 1) w).1

/-- One turn of the loop of `execute_pipeline` (lines 138-171) for stage `i`
with command string `cmd`.  The flag of the result is `false` when the turn ends
in `return`, `true` when the loop goes on. -/
def pipelineStage (os : PipeOS) (ncmds i : Nat) (cmd : List Char) (st : PipeState) :
    Except Fault (PipeState × Bool) :=
  if i + 1 < ncmds ∧ os.pipeOk i = false then .ok (st, false)
  else
    let piped : PipeState × Option (Nat × Nat) :=
      if i + 1 < ncmds then
        ({ st with fds := (sysPipe st.fds i).1 }, some (sysPipe st.fds i).2)
      else (st, none)
    match split_args cmd with
    | .error f => .error f
    | .ok [] =>
      match piped.2 with
      | none => .ok (piped.1, true)
      | some (r, w) => .ok ((piped.1.close r).close w, true)
    | .ok (a :: args) =>
      match os.forkResult i with
      | none => .ok (piped.1, false)
      | some pid =>
        let child : ChildProc :=
          { stage := i, pid := pid, argv := a :: args
            fds := childTable piped.1.fds piped.1.in_fd piped.2 }
        let st1 : PipeState :=
          { piped.1 with pids := piped.1.pids.set i (some pid)
                         children := piped.1.children ++ [child] }
        let st2 : PipeState :=
          match st1.in_fd with
          | none => st1
          | some fd => st1.close fd
        match piped.2 with
        | none => .ok (st2, true)
        | some (r, w) => .ok ({ st2.close w with in_fd := some r }, true)

/-- The loop `for (i = 0; i < ncmds; ++i)` of `execute_pipeline` from stage `i`
on, over the command strings `cmds[i], cmds[i+1], ...`. -/
def pipelineLoop (os : PipeOS) (ncmds : Nat) :
    Nat → List (List Char) → PipeState → Except Fault (PipeState × Bool)
  | _, [], st => .ok (st, true)
  | i, cmd :: rest, st =>
    match pipelineStage os ncmds i cmd st with
    | .error f => .error f
    | .ok (st1, false) => .ok (st1, false)
    | .ok (st1, true) => pipelineLoop os ncmds (i + 1) rest st1

/-- What a call of `execute_pipeline` leaves behind. -/
structure PipeOutcome where
  /-- The descriptor table of the shell when the function returns. -/
  fds : FdTable
  /-- The children created, in creation order, each as it calls `execvp`. -/
  children : List ChildProc
  /-- The arguments of the calls of `waitpid`, in order; `none` is the
  indeterminate value of a slot of `pids` that was never assigned. -/
  waits : List (Option Nat)
  /-- The descriptors passed to a `close` that failed. -/
  badCloses : List Nat
  /-- The loop ran to its end (no `return` inside it). -/
  completed : Bool
  deriving DecidableEq, Repr

/-- The function `execute_pipeline` on the stage strings `cmds`, called with the
descriptor table `fds`. -/
def execute_pipeline (os : PipeOS) (cmds : List (List Char)) (fds : FdTable) :
    Except Fault PipeOutcome :=
  let st0 : PipeState :=
    { fds := fds, in_fd := none, pids := List.replicate cmds.length none, children := [],
      badCloses := [] }
  match pipelineLoop os cmds.length 0 cmds st0 with
  | .error f => .error f
  | .ok (st, completed) =>
    .ok { fds := st.fds, children := st.children
          waits := if completed then st.pids else []
          badCloses := st.badCloses, completed := completed }

/-- The pids that the successful calls of `fork` returned, in creation order. -/
def PipeOutcome.forked (o : PipeOutcome) : List Nat := o.children.map (fun c => c.pid)

/-- The descriptor refers to an end of a pipe of this call. -/
def Res.isPipe : Res → Bool
  | .inherited _ => false
  | _ => true

/-- The pipe ends a descriptor table holds, with their descriptors. -/
def pipeEnds (t : FdTable) : FdTable := t.filter (fun e => e.2.isPipe)

/-- The state of the shell before stage `i` of a pipeline of `n` stages whose
earlier stages were all created: the table is the initial table `fds0` plus the
read end kept in `in_fd` (nothing more once the last stage is done), no `close`
has failed, the first `i` slots of `pids` hold the pids of the children, and
each child holds pipe ends only on descriptors 0 and 1. -/
def PipeInv (fds0 : FdTable) (n i : Nat) (st : PipeState) : Prop :=
  (if i < n then
      match st.in_fd with
      | none => st.fds = fds0
      | some fd => isOpen fds0 fd = false ∧ ∃ j, st.fds = fds0 ++ [(fd, Res.pipeRead j)]
    else st.fds = fds0) ∧
  st.badCloses = [] ∧
  st.pids = st.children.map (fun c => some c.pid) ++ List.replicate (n - i) none ∧
  st.children.length = i ∧
  ∀ c ∈ st.children, ∀ e ∈ pipeEnds c.fds, e.1 = 0 ∨ e.1 = 1

/-- The descriptor table of a shell with its three standard streams open. -/
def stdTable : FdTable := [(0, .inherited 0), (1, .inherited 1), (2, .inherited 2)]

/-- An operating system on which every `pipe` and every `fork` succeeds; the
child of stage `i` gets the pid `100 + i`. -/
def allOk : PipeOS := { pipeOk := fun _ => true, forkResult := fun i => some (100 + i) }

/-- An operating system on which `fork` fails at stage `k` and everything else
succeeds. -/
def forkFailsAt (k : Nat) : PipeOS :=
  { pipeOk := fun _ => true, forkResult := fun i => if i = k then none else some (100 + i) }

/-! # Theorems -/

set_option maxRecDepth 1000000

/-! ## Supporting lemmas: the tokenizer, `trim` and `strtok_r` -/

theorem isBlank_of_isQuote {c : Char} (h : isQuote c = true) : isBlank c = false := by
  simp only [isQuote, Bool.or_eq_true, beq_iff_eq] at h
  rcases h with h | h <;> subst h <;> decide

theorem skipBlanks_append {bl : List Char} (h : AllBlank bl) (s : List Char) :
    skipBlanks (bl ++ s) = skipBlanks s := by
  induction bl with
  | nil => rfl
  | cons b bl ih =>
    have hb : isBlank b = true := h b (List.mem_cons_self _ _)
    have ht : AllBlank bl := fun c hc => h c (List.mem_cons_of_mem _ hc)
    simp [skipBlanks, hb, ih ht]

theorem skipBlanks_allBlank {bl : List Char} (h : AllBlank bl) : skipBlanks bl = [] := by
  have := skipBlanks_append h []
  simpa [skipBlanks] using this

theorem skipBlanks_cons {c : Char} (h : isBlank c = false) (s : List Char) :
    skipBlanks (c :: s) = c :: s := by
  simp [skipBlanks, h]

theorem scanQuoted_closed (q : Char) (body rest : List Char) (h : q ∉ body) :
    scanQuoted q (body ++ q :: rest) = (body, q :: rest) := by
  induction body with
  | nil => simp [scanQuoted]
  | cons b body ih =>
    have hb : b ≠ q := fun e => h (e ▸ List.mem_cons_self _ _)
    have ht : q ∉ body := fun hm => h (List.mem_cons_of_mem _ hm)
    simp [scanQuoted, hb, ih ht]

theorem scanQuoted_open (q : Char) (body : List Char) (h : q ∉ body) :
    scanQuoted q body = (body, []) := by
  induction body with
  | nil => simp [scanQuoted]
  | cons b body ih =>
    have hb : b ≠ q := fun e => h (e ▸ List.mem_cons_self _ _)
    have ht : q ∉ body := fun hm => h (List.mem_cons_of_mem _ hm)
    simp [scanQuoted, hb, ih ht]

theorem scanWord_blank (w : List Char) (b : Char) (rest : List Char)
    (hw : ∀ x ∈ w, isBlank x = false) (hb : isBlank b = true) :
    scanWord (w ++ b :: rest) = (w, b :: rest) := by
  induction w with
  | nil => simp [scanWord, hb]
  | cons c w ih =>
    have hc : isBlank c = false := hw c (List.mem_cons_self _ _)
    have ht : ∀ x ∈ w, isBlank x = false := fun x hx => hw x (List.mem_cons_of_mem _ hx)
    simp [scanWord, hc, ih ht]

theorem scanWord_end (w : List Char) (hw : ∀ x ∈ w, isBlank x = false) :
    scanWord w = (w, []) := by
  induction w with
  | nil => simp [scanWord]
  | cons c w ih =>
    have hc : isBlank c = false := hw c (List.mem_cons_self _ _)
    have ht : ∀ x ∈ w, isBlank x = false := fun x hx => hw x (List.mem_cons_of_mem _ hx)
    simp [scanWord, hc, ih ht]

theorem split_args_loop_nil (f : Nat) (argv : List (List Char)) :
    split_args_loop (f + 1) [] argv = storeNull argv := rfl

theorem split_args_loop_quote (f : Nat) (p : List Char) (argv : List (List Char)) (q : Char)
    (rest : List Char) (hs : skipBlanks p = q :: rest) (hq : isQuote q = true)
    (hn : argv.length < MAX_ARGS) :
    split_args_loop (f + 1) p argv
      = split_args_loop f (advance (scanQuoted q rest).2) (argv ++ [(scanQuoted q rest).1]) := by
  simp [split_args_loop, hs, hq, hn]

theorem split_args_loop_word (f : Nat) (p : List Char) (argv : List (List Char)) (c : Char)
    (rest : List Char) (hs : skipBlanks p = c :: rest) (hq : isQuote c = false)
    (hn : argv.length < MAX_ARGS) :
    split_args_loop (f + 1) p argv
      = split_args_loop f (advance (scanWord (c :: rest)).2)
          (argv ++ [(scanWord (c :: rest)).1]) := by
  simp [split_args_loop, hs, hq, hn]

theorem split_args_loop_lex {p : List Char} {toks : List (List Char)} (h : Lex p toks) :
    ∀ (fuel : Nat) (argv : List (List Char)), p.length < fuel →
      argv.length + toks.length < MAX_ARGS →
      split_args_loop fuel p argv = .ok (argv ++ toks) := by
  induction h with
  | done bl hbl =>
    intro fuel argv hf hn
    obtain ⟨f, rfl⟩ : ∃ f, fuel = f + 1 := ⟨fuel - 1, by omega⟩
    have hn1 : argv.length < MAX_ARGS := by simpa using hn
    simp [split_args_loop, skipBlanks_allBlank hbl, storeNull, hn1]
  | quoted bl q body rest toks hbl hq hbody _ ih =>
    intro fuel argv hf hn
    obtain ⟨f, rfl⟩ : ∃ f, fuel = f + 1 := ⟨fuel - 1, by omega⟩
    simp only [List.length_append, List.length_cons] at hf hn
    have hs : skipBlanks (bl ++ q :: (body ++ q :: rest)) = q :: (body ++ q :: rest) := by
      rw [skipBlanks_append hbl, skipBlanks_cons (isBlank_of_isQuote hq)]
    rw [split_args_loop_quote f _ argv q _ hs hq (by omega), scanQuoted_closed q body rest hbody]
    have hrec := ih f (argv ++ [body]) (by omega) (by simp; omega)
    simpa [advance] using hrec
  | openQuote bl q body hbl hq hbody =>
    intro fuel argv hf hn
    obtain ⟨f, rfl⟩ : ∃ f, fuel = f + 1 := ⟨fuel - 1, by omega⟩
    simp only [List.length_append, List.length_cons, List.length_nil] at hf hn
    obtain ⟨g, rfl⟩ : ∃ g, f = g + 1 := ⟨f - 1, by omega⟩
    have hs : skipBlanks (bl ++ q :: body) = q :: body := by
      rw [skipBlanks_append hbl, skipBlanks_cons (isBlank_of_isQuote hq)]
    rw [split_args_loop_quote (g + 1) _ argv q _ hs hq (by omega), scanQuoted_open q body hbody]
    have hn2 : argv.length + 1 < MAX_ARGS := by omega
    simp [advance, split_args_loop_nil, storeNull, hn2]
  | word bl c w b rest toks hbl hc hcq hw hb _ ih =>
    intro fuel argv hf hn
    obtain ⟨f, rfl⟩ : ∃ f, fuel = f + 1 := ⟨fuel - 1, by omega⟩
    simp only [List.length_append, List.length_cons] at hf hn
    have hs : skipBlanks (bl ++ c :: (w ++ b :: rest)) = c :: (w ++ b :: rest) := by
      rw [skipBlanks_append hbl, skipBlanks_cons hc]
    have hsw : scanWord (c :: (w ++ b :: rest)) = (c :: w, b :: rest) := by
      have := scanWord_blank (c :: w) b rest
        (by intro x hx; rcases List.mem_cons.1 hx with e | e; exact e ▸ hc; exact hw x e) hb
      simpa using this
    rw [split_args_loop_word f _ argv c _ hs hcq (by omega), hsw]
    have hrec := ih f (argv ++ [c :: w]) (by omega) (by simp; omega)
    simpa [advance] using hrec
  | lastWord bl c w hbl hc hcq hw =>
    intro fuel argv hf hn
    obtain ⟨f, rfl⟩ : ∃ f, fuel = f + 1 := ⟨fuel - 1, by omega⟩
    simp only [List.length_append, List.length_cons, List.length_nil] at hf hn
    obtain ⟨g, rfl⟩ : ∃ g, f = g + 1 := ⟨f - 1, by omega⟩
    have hs : skipBlanks (bl ++ c :: w) = c :: w := by
      rw [skipBlanks_append hbl, skipBlanks_cons hc]
    have hsw : scanWord (c :: w) = (c :: w, []) :=
      scanWord_end (c :: w)
        (by intro x hx; rcases List.mem_cons.1 hx with e | e; exact e ▸ hc; exact hw x e)
    rw [split_args_loop_word (g + 1) _ argv c _ hs hcq (by omega), hsw]
    have hn2 : argv.length + 1 < MAX_ARGS := by omega
    simp [advance, split_args_loop_nil, storeNull, hn2]

theorem split_args_loop_full (f : Nat) (p : List Char) (argv : List (List Char)) (c : Char)
    (rest : List Char) (hs : skipBlanks p = c :: rest) (hn : ¬ argv.length < MAX_ARGS) :
    split_args_loop (f + 1) p argv = .error (.outOfBounds argv.length) := by
  simp [split_args_loop, hs, hn]

theorem split_args_loop_lex_overflow {p : List Char} {toks : List (List Char)} (h : Lex p toks) :
    ∀ (fuel : Nat) (argv : List (List Char)), p.length < fuel →
      argv.length ≤ MAX_ARGS → MAX_ARGS ≤ argv.length + toks.length →
      split_args_loop fuel p argv = .error (.outOfBounds MAX_ARGS) := by
  induction h with
  | done bl hbl =>
    intro fuel argv hf h1 h2
    obtain ⟨f, rfl⟩ : ∃ f, fuel = f + 1 := ⟨fuel - 1, by omega⟩
    simp only [List.length_nil, Nat.add_zero] at h2
    have he : argv.length = MAX_ARGS := by omega
    simp [split_args_loop, skipBlanks_allBlank hbl, storeNull, he]
  | quoted bl q body rest toks hbl hq hbody _ ih =>
    intro fuel argv hf h1 h2
    obtain ⟨f, rfl⟩ : ∃ f, fuel = f + 1 := ⟨fuel - 1, by omega⟩
    simp only [List.length_append, List.length_cons] at hf h2
    have hs : skipBlanks (bl ++ q :: (body ++ q :: rest)) = q :: (body ++ q :: rest) := by
      rw [skipBlanks_append hbl, skipBlanks_cons (isBlank_of_isQuote hq)]
    by_cases hlt : argv.length < MAX_ARGS
    · rw [split_args_loop_quote f _ argv q _ hs hq hlt, scanQuoted_closed q body rest hbody]
      have hrec := ih f (argv ++ [body]) (by omega) (by simp; omega) (by simp; omega)
      simpa [advance] using hrec
    · rw [split_args_loop_full f _ argv q _ hs hlt]
      have he : argv.length = MAX_ARGS := by omega
      rw [he]
  | openQuote bl q body hbl hq hbody =>
    intro fuel argv hf h1 h2
    obtain ⟨f, rfl⟩ : ∃ f, fuel = f + 1 := ⟨fuel - 1, by omega⟩
    simp only [List.length_append, List.length_cons, List.length_nil] at hf h2
    obtain ⟨g, rfl⟩ : ∃ g, f = g + 1 := ⟨f - 1, by omega⟩
    have hs : skipBlanks (bl ++ q :: body) = q :: body := by
      rw [skipBlanks_append hbl, skipBlanks_cons (isBlank_of_isQuote hq)]
    by_cases hlt : argv.length < MAX_ARGS
    · rw [split_args_loop_quote (g + 1) _ argv q _ hs hq hlt, scanQuoted_open q body hbody]
      have he : argv.length + 1 = MAX_ARGS := by omega
      simp [advance, split_args_loop_nil, storeNull, he]
    · rw [split_args_loop_full (g + 1) _ argv q _ hs hlt]
      have he : argv.length = MAX_ARGS := by omega
      rw [he]
  | word bl c w b rest toks hbl hc hcq hw hb _ ih =>
    intro fuel argv hf h1 h2
    obtain ⟨f, rfl⟩ : ∃ f, fuel = f + 1 := ⟨fuel - 1, by omega⟩
    simp only [List.length_append, List.length_cons] at hf h2
    have hs : skipBlanks (bl ++ c :: (w ++ b :: rest)) = c :: (w ++ b :: rest) := by
      rw [skipBlanks_append hbl, skipBlanks_cons hc]
    have hsw : scanWord (c :: (w ++ b :: rest)) = (c :: w, b :: rest) := by
      have := scanWord_blank (c :: w) b rest
        (by intro x hx; rcases List.mem_cons.1 hx with e | e; exact e ▸ hc; exact hw x e) hb
      simpa using this
    by_cases hlt : argv.length < MAX_ARGS
    · rw [split_args_loop_word f _ argv c _ hs hcq hlt, hsw]
      have hrec := ih f (argv ++ [c :: w]) (by omega) (by simp; omega) (by simp; omega)
      simpa [advance] using hrec
    · rw [split_args_loop_full f _ argv c _ hs hlt]
      have he : argv.length = MAX_ARGS := by omega
      rw [he]
  | lastWord bl c w hbl hc hcq hw =>
    intro fuel argv hf h1 h2
    obtain ⟨f, rfl⟩ : ∃ f, fuel = f + 1 := ⟨fuel - 1, by omega⟩
    simp only [List.length_append, List.length_cons, List.length_nil] at hf h2
    obtain ⟨g, rfl⟩ : ∃ g, f = g + 1 := ⟨f - 1, by omega⟩
    have hs : skipBlanks (bl ++ c :: w) = c :: w := by
      rw [skipBlanks_append hbl, skipBlanks_cons hc]
    have hsw : scanWord (c :: w) = (c :: w, []) :=
      scanWord_end (c :: w)
        (by intro x hx; rcases List.mem_cons.1 hx with e | e; exact e ▸ hc; exact hw x e)
    by_cases hlt : argv.length < MAX_ARGS
    · rw [split_args_loop_word (g + 1) _ argv c _ hs hcq hlt, hsw]
      have he : argv.length + 1 = MAX_ARGS := by omega
      simp [advance, split_args_loop_nil, storeNull, he]
    · rw [split_args_loop_full (g + 1) _ argv c _ hs hlt]
      have he : argv.length = MAX_ARGS := by omega
      rw [he]

/-- A command string with `MAX_ARGS` tokens or more makes `split_args` write
outside the argument array, at index `MAX_ARGS`. -/
theorem split_args_overflow (cmd : List Char) (toks : List (List Char)) (h : Lex cmd toks)
    (hn : MAX_ARGS ≤ toks.length) : split_args cmd = .error (.outOfBounds MAX_ARGS) := by
  have := split_args_loop_lex_overflow h (cmd.length + 1) [] (Nat.lt_succ_self _)
    (by simp) (by simpa using hn)
  simpa [split_args] using this

theorem span_blank (cmd : List Char) :
    ∃ bl s, cmd = bl ++ s ∧ AllBlank bl ∧
      (s = [] ∨ ∃ c rest, s = c :: rest ∧ isBlank c = false) := by
  induction cmd with
  | nil => exact ⟨[], [], rfl, (fun c hc => by cases hc), Or.inl rfl⟩
  | cons a cmd ih =>
    by_cases ha : isBlank a = true
    · obtain ⟨bl, s, e, hbl, hs⟩ := ih
      refine ⟨a :: bl, s, by rw [e]; rfl, ?_, hs⟩
      intro c hc
      rcases List.mem_cons.1 hc with h | h
      · exact h ▸ ha
      · exact hbl c h
    · exact ⟨[], a :: cmd, rfl, (fun c hc => by cases hc), Or.inr ⟨a, cmd, rfl, by simpa using ha⟩⟩

theorem span_quote (q : Char) (rest : List Char) :
    ∃ body s, rest = body ++ s ∧ q ∉ body ∧ (s = [] ∨ ∃ r, s = q :: r) := by
  induction rest with
  | nil => exact ⟨[], [], rfl, by simp, Or.inl rfl⟩
  | cons a rest ih =>
    by_cases ha : a = q
    · exact ⟨[], a :: rest, rfl, by simp, Or.inr ⟨rest, by rw [ha]⟩⟩
    · obtain ⟨body, s, e, hb, hs⟩ := ih
      refine ⟨a :: body, s, by rw [e]; rfl, ?_, hs⟩
      intro hm
      rcases List.mem_cons.1 hm with h | h
      · exact ha h.symm
      · exact hb h

theorem span_word (rest : List Char) :
    ∃ w s, rest = w ++ s ∧ (∀ x ∈ w, isBlank x = false) ∧
      (s = [] ∨ ∃ b r, s = b :: r ∧ isBlank b = true) := by
  induction rest with
  | nil => exact ⟨[], [], rfl, by simp, Or.inl rfl⟩
  | cons a rest ih =>
    by_cases ha : isBlank a = true
    · exact ⟨[], a :: rest, rfl, by simp, Or.inr ⟨a, rest, rfl, ha⟩⟩
    · obtain ⟨w, s, e, hw, hs⟩ := ih
      refine ⟨a :: w, s, by rw [e]; rfl, ?_, hs⟩
      intro x hx
      rcases List.mem_cons.1 hx with h | h
      · rw [h]; simpa using ha
      · exact hw x h

/-- Every string has a lexical decomposition. -/
theorem lex_total : ∀ (n : Nat) (cmd : List Char), cmd.length ≤ n → ∃ toks, Lex cmd toks := by
  intro n
  induction n with
  | zero =>
    intro cmd h
    have : cmd = [] := List.length_eq_zero.1 (by omega)
    subst this
    exact ⟨[], Lex.done [] (fun c hc => by cases hc)⟩
  | succ n ih =>
    intro cmd h
    obtain ⟨bl, s, rfl, hbl, hs⟩ := span_blank cmd
    rcases hs with rfl | ⟨c, rest, rfl, hc⟩
    · exact ⟨[], by simpa using Lex.done bl hbl⟩
    · simp only [List.length_append, List.length_cons] at h
      by_cases hq : isQuote c = true
      · obtain ⟨body, s, rfl, hbody, hs⟩ := span_quote c rest
        rcases hs with rfl | ⟨r, rfl⟩
        · exact ⟨[body], by simpa using Lex.openQuote bl c body hbl hq hbody⟩
        · simp only [List.length_append, List.length_cons] at h
          obtain ⟨toks, ht⟩ := ih r (by omega)
          exact ⟨body :: toks, Lex.quoted bl c body r toks hbl hq hbody ht⟩
      · have hq0 : isQuote c = false := by simpa using hq
        obtain ⟨w, s, rfl, hw, hs⟩ := span_word rest
        rcases hs with rfl | ⟨b, r, rfl, hb⟩
        · exact ⟨[c :: w], by simpa using Lex.lastWord bl c w hbl hc hq0 hw⟩
        · simp only [List.length_append, List.length_cons] at h
          obtain ⟨toks, ht⟩ := ih r (by omega)
          exact ⟨(c :: w) :: toks, Lex.word bl c w b r toks hbl hc hq0 hw hb ht⟩


/-- The model of `split_args` never runs out of fuel: on every command string it
returns the tokens of the decomposition, or faults at index `MAX_ARGS` when
there are `MAX_ARGS` tokens or more. -/
theorem split_args_total (cmd : List Char) :
    ∃ toks, Lex cmd toks ∧
      split_args cmd
        = if toks.length < MAX_ARGS then .ok toks else .error (.outOfBounds MAX_ARGS) := by
  obtain ⟨toks, h⟩ := lex_total cmd.length cmd (Nat.le_refl _)
  refine ⟨toks, h, ?_⟩
  by_cases hn : toks.length < MAX_ARGS
  · have := split_args_loop_lex h (cmd.length + 1) [] (Nat.lt_succ_self _) (by simpa using hn)
    simpa [split_args, hn] using this
  · rw [if_neg hn]
    exact split_args_overflow cmd toks h (by omega)

theorem skipTrimSpace_head {s : List Char} {c : Char} {cs : List Char}
    (h : skipTrimSpace s = c :: cs) : isTrimSpace c = false := by
  induction s with
  | nil => simp [skipTrimSpace] at h
  | cons a s ih =>
    by_cases ha : isTrimSpace a = true
    · simp only [skipTrimSpace, ha, if_true] at h
      exact ih h
    · simp only [skipTrimSpace, ha] at h
      simp only [Bool.false_eq_true, if_false, List.cons.injEq] at h
      rw [← h.1]
      simpa using ha

theorem trimEnd_eq_take (s : List Char) :
    ∀ e : Nat, ∃ k, k ≤ e ∧ trimEnd s e = s.take (k + 1) ∧
      (k = 0 ∨ isTrimSpace (s.getD k (Char.ofNat 0)) = false) := by
  intro e
  induction e with
  | zero => exact ⟨0, Nat.le_refl _, rfl, Or.inl rfl⟩
  | succ e ih =>
    by_cases h : isTrimSpace (s.getD (e + 1) (Char.ofNat 0)) = true
    · obtain ⟨k, hk, he, hx⟩ := ih
      exact ⟨k, Nat.le_succ_of_le hk, by rw [trimEnd, if_pos h, he], hx⟩
    · exact ⟨e + 1, Nat.le_refl _, by rw [trimEnd, if_neg h], Or.inr (by simpa using h)⟩

theorem getLast?_take_succ (s : List Char) (k : Nat) (hk : k < s.length) :
    (s.take (k + 1)).getLast? = some (s.getD k (Char.ofNat 0)) := by
  have hd : s.getD k (Char.ofNat 0) = s[k] := by
    simp [List.getD_eq_getElem?_getD, List.getElem?_eq_getElem hk]
  rw [hd, List.getLast?_take]
  simp [List.getElem?_eq_getElem hk]

theorem trimmed_trim (s : List Char) : Trimmed (trim s) := by
  unfold trim
  cases hs : skipTrimSpace s with
  | nil => exact ⟨by simp, by simp⟩
  | cons c cs =>
    have hc := skipTrimSpace_head hs
    obtain ⟨k, hk, he, hx⟩ := trimEnd_eq_take (c :: cs) ((c :: cs).length - 1)
    simp only [he]
    refine ⟨?_, ?_⟩
    · intro x hx1
      simp at hx1
      rw [← hx1]
      exact hc
    · intro x hx1
      have hklt : k < (c :: cs).length := by
        simp only [List.length_cons] at hk ⊢
        omega
      rw [getLast?_take_succ _ k hklt] at hx1
      simp only [Option.some.injEq] at hx1
      rcases hx with rfl | h
      · simp at hx1
        rw [← hx1]
        exact hc
      · rw [← hx1]
        exact h

theorem skipTrimSpace_decompose (s : List Char) :
    ∃ pre, s = pre ++ skipTrimSpace s ∧ ∀ c ∈ pre, isTrimSpace c = true := by
  induction s with
  | nil => exact ⟨[], rfl, by simp⟩
  | cons a s ih =>
    by_cases ha : isTrimSpace a = true
    · obtain ⟨pre, e, hpre⟩ := ih
      refine ⟨a :: pre, by simp only [skipTrimSpace, ha, if_true, List.cons_append, ← e], ?_⟩
      intro c hc
      rcases List.mem_cons.1 hc with h | h
      · exact h ▸ ha
      · exact hpre c h
    · exact ⟨[], by simp [skipTrimSpace, ha], by simp⟩

theorem trimEnd_removes_spaces (s : List Char) :
    ∀ e : Nat, ∃ k, k ≤ e ∧ trimEnd s e = s.take (k + 1) ∧
      ∀ j, k < j → j ≤ e → isTrimSpace (s.getD j (Char.ofNat 0)) = true := by
  intro e
  induction e with
  | zero => exact ⟨0, Nat.le_refl _, rfl, by intro j h1 h2; omega⟩
  | succ e ih =>
    by_cases h : isTrimSpace (s.getD (e + 1) (Char.ofNat 0)) = true
    · obtain ⟨k, hk, he, hx⟩ := ih
      refine ⟨k, Nat.le_succ_of_le hk, by rw [trimEnd, if_pos h, he], ?_⟩
      intro j h1 h2
      by_cases hj : j = e + 1
      · rw [hj]; exact h
      · exact hx j h1 (by omega)
    · exact ⟨e + 1, Nat.le_refl _, by rw [trimEnd, if_neg h], by intro j h1 h2; omega⟩

/-- The function `trim` removes white space only: its argument is the result
between a run of leading and a run of trailing white space. -/
theorem trim_decompose (s : List Char) :
    ∃ pre post, s = pre ++ trim s ++ post ∧ (∀ c ∈ pre, isTrimSpace c = true) ∧
      ∀ c ∈ post, isTrimSpace c = true := by
  obtain ⟨pre, hs, hpre⟩ := skipTrimSpace_decompose s
  unfold trim
  cases h1 : skipTrimSpace s with
  | nil =>
    rw [h1] at hs
    exact ⟨pre, [], by simpa using hs, hpre, by simp⟩
  | cons c cs =>
    rw [h1] at hs
    obtain ⟨k, hk, he, hsp⟩ := trimEnd_removes_spaces (c :: cs) ((c :: cs).length - 1)
    refine ⟨pre, (c :: cs).drop (k + 1), ?_, hpre, ?_⟩
    · simp only [he]
      rw [List.append_assoc, List.take_append_drop]
      exact hs
    · intro x hx
      obtain ⟨j, hj, rfl⟩ := List.mem_iff_getElem.1 hx
      have hlen : k + 1 + j < (c :: cs).length := by
        simp only [List.length_drop] at hj
        omega
      have := hsp (k + 1 + j) (by omega) (by omega)
      rw [List.getElem_drop]
      simpa [List.getD_eq_getElem?_getD, List.getElem?_eq_getElem hlen] using this

/-- A leading delimiter only adds an empty piece. -/
theorem filter_splitOn_bar_cons (cs : List Char) :
    (List.splitOn BAR (BAR :: cs)).filter (· ≠ []) = (List.splitOn BAR cs).filter (· ≠ []) := by
  simp [List.splitOn, List.splitOnP_cons]

theorem skipDelims_pieces (s : List Char) :
    (List.splitOn BAR (skipDelims BAR s)).filter (· ≠ []) = (List.splitOn BAR s).filter (· ≠ []) := by
  induction s with
  | nil => rfl
  | cons c cs ih =>
    by_cases hc : c = BAR
    · subst hc
      rw [filter_splitOn_bar_cons]
      simpa [skipDelims] using ih
    · simp [skipDelims, hc]

theorem skipDelims_head {s : List Char} {c : Char} {cs : List Char}
    (h : skipDelims BAR s = c :: cs) : c ≠ BAR := by
  induction s with
  | nil => simp [skipDelims] at h
  | cons a s ih =>
    by_cases ha : a = BAR
    · subst ha
      simp only [skipDelims, beq_self_eq_true, if_true] at h
      exact ih h
    · simp only [skipDelims, beq_iff_eq, ha, if_false, List.cons.injEq] at h
      rw [← h.1]
      exact ha

theorem scanToken_closed (d : Char) (tok rest : List Char) (h : d ∉ tok) :
    scanToken d (tok ++ d :: rest) = (tok, d :: rest) := by
  induction tok with
  | nil => simp [scanToken]
  | cons b tok ih =>
    have hb : b ≠ d := fun e => h (e ▸ List.mem_cons_self _ _)
    have ht : d ∉ tok := fun hm => h (List.mem_cons_of_mem _ hm)
    simp [scanToken, hb, ih ht]

theorem scanToken_open (d : Char) (tok : List Char) (h : d ∉ tok) :
    scanToken d tok = (tok, []) := by
  induction tok with
  | nil => simp [scanToken]
  | cons b tok ih =>
    have hb : b ≠ d := fun e => h (e ▸ List.mem_cons_self _ _)
    have ht : d ∉ tok := fun hm => h (List.mem_cons_of_mem _ hm)
    simp [scanToken, hb, ih ht]

/-- A call of `strtok_r` returns the first non-empty piece and leaves the rest. -/
theorem strtok_r_pieces (s : List Char) :
    (strtok_r BAR s = none ∧ (List.splitOn BAR s).filter (· ≠ []) = []) ∨
    (∃ tok rest, strtok_r BAR s = some (tok, rest) ∧
      (List.splitOn BAR s).filter (· ≠ []) = tok :: (List.splitOn BAR rest).filter (· ≠ [])) := by
  rw [← skipDelims_pieces s]
  unfold strtok_r
  cases hs : skipDelims BAR s with
  | nil => left; exact ⟨rfl, by simp [List.splitOn]⟩
  | cons c cs =>
    right
    have hc : c ≠ BAR := skipDelims_head hs
    obtain ⟨body, r, e, hbody, hr⟩ := span_quote BAR cs
    have hmem : BAR ∉ c :: body := by
      intro hm
      rcases List.mem_cons.1 hm with h | h
      · exact hc h.symm
      · exact hbody h
    have hp : ∀ x ∈ c :: body, ¬ ((fun y => y == BAR) x = true) := by
      intro x hx hxb
      have : x = BAR := by simpa using hxb
      exact hmem (this ▸ hx)
    rcases hr with hr | ⟨r1, hr⟩
    · rw [hr, List.append_nil] at e
      rw [e]
      refine ⟨c :: body, [], ?_, ?_⟩
      · simp [scanToken_open BAR (c :: body) hmem, advance]
      · have h1 : List.splitOn BAR (c :: body) = [c :: body] :=
          List.splitOnP_eq_single _ _ hp
        rw [h1]
        simp [List.splitOn]
    · rw [hr] at e
      rw [e]
      refine ⟨c :: body, r1, ?_, ?_⟩
      · have := scanToken_closed BAR (c :: body) r1 hmem
        simp only [List.cons_append] at this
        simp [this, advance]
      · have h1 : List.splitOn BAR ((c :: body) ++ BAR :: r1)
            = (c :: body) :: List.splitOn BAR r1 :=
          List.splitOnP_first _ _ hp BAR (by simp) r1
        simp only [List.cons_append] at h1
        rw [h1]
        simp

theorem stagesLoop_pieces :
    ∀ (fuel : Nat) (s : List Char) (cmds : List (List Char)),
      cmds.length ≤ MAX_CMDS → MAX_CMDS < fuel + cmds.length →
      stagesLoop fuel (strtok_r BAR s) cmds
        = cmds ++ (((List.splitOn BAR s).filter (· ≠ [])).take (MAX_CMDS - cmds.length)).map trim := by
  intro fuel
  induction fuel with
  | zero => intro s cmds h1 h2; omega
  | succ f ih =>
    intro s cmds h1 h2
    rcases strtok_r_pieces s with ⟨hn, hp⟩ | ⟨tok, rest, hn, hp⟩
    · rw [hn, hp]; simp [stagesLoop]
    · rw [hn, hp]
      by_cases hlt : cmds.length < MAX_CMDS
      · have hrec := ih rest (cmds ++ [trim tok]) (by simp; omega) (by simp; omega)
        obtain ⟨m, hm⟩ : ∃ m, MAX_CMDS - cmds.length = m + 1 := ⟨MAX_CMDS - cmds.length - 1, by omega⟩
        have hm1 : MAX_CMDS - (cmds ++ [trim tok]).length = m := by simp; omega
        rw [hm1] at hrec
        simp only [stagesLoop, hlt, if_true, hrec, hm, List.take_succ_cons, List.map_cons]
        simp
      · have : MAX_CMDS - cmds.length = 0 := by omega
        simp [stagesLoop, hlt, this]


theorem lex_wordsLine (n : Nat) : Lex (wordsLine n) (List.replicate (n + 1) ['a']) := by
  induction n with
  | zero => exact Lex.lastWord [] 'a' [] (by decide) (by decide) (by decide) (by decide)
  | succ n ih =>
    exact Lex.word [] 'a' [] ' ' (wordsLine n) _ (by decide) (by decide) (by decide) (by decide)
      (by decide) ih

theorem isTrimSpace_eq (c : Char) : isTrimSpace c = isStageSpace c := rfl

theorem dropWhile_append_all (p : Char → Bool) (pre rest : List Char)
    (h : ∀ c ∈ pre, p c = true) : (pre ++ rest).dropWhile p = rest.dropWhile p := by
  induction pre with
  | nil => rfl
  | cons a pre ih =>
    have ha : p a = true := h a (List.mem_cons_self _ _)
    have ht : ∀ c ∈ pre, p c = true := fun c hc => h c (List.mem_cons_of_mem _ hc)
    simp [List.dropWhile, ha, ih ht]

/-- A string between two runs of characters of a class, itself neither starting
nor ending with one, is what `stripWith` returns. -/
theorem stripWith_of_decompose (p : Char → Bool) (pre t post : List Char)
    (hpre : ∀ c ∈ pre, p c = true) (hpost : ∀ c ∈ post, p c = true)
    (hhead : ∀ c, t.head? = some c → p c = false)
    (hlast : ∀ c, t.getLast? = some c → p c = false) :
    stripWith p (pre ++ t ++ post) = t := by
  unfold stripWith
  rw [List.append_assoc, dropWhile_append_all p pre _ hpre]
  rcases List.eq_nil_or_concat t with rfl | ⟨init, l, rfl⟩
  · have := dropWhile_append_all p post [] hpost
    simp only [List.append_nil, List.dropWhile_nil] at this
    simp [this]
  · simp only [List.concat_eq_append] at hhead hlast ⊢
    have hl : p l = false := hlast l (by simp)
    have h1 : ((init ++ [l]) ++ post).dropWhile p = (init ++ [l]) ++ post := by
      cases init with
      | nil =>
        simp [List.dropWhile, hl]
      | cons a init =>
        have ha : p a = false := hhead a (by simp)
        simp [List.dropWhile, ha]
    rw [h1]
    have h2 : ((init ++ [l]) ++ post).reverse = post.reverse ++ (l :: init.reverse) := by
      simp
    rw [h2, dropWhile_append_all p post.reverse _ (by
      intro c hc
      exact hpost c (List.mem_reverse.1 hc))]
    simp [List.dropWhile, hl]

/-- The function `trim` removes exactly the leading and trailing spaces, tabs,
line feeds and carriage returns. -/
theorem trim_eq_stripSpaces (s : List Char) : trim s = stripSpaces s := by
  obtain ⟨pre, post, hs, hpre, hpost⟩ := trim_decompose s
  have ht := trimmed_trim s
  have := stripWith_of_decompose isStageSpace pre (trim s) post hpre hpost ht.1 ht.2
  rw [← hs] at this
  exact this.symm

/-! ## Supporting lemmas: descriptor tables and the pipeline loop -/

theorem isOpen_iff (t : FdTable) (fd : Nat) : isOpen t fd = true ↔ ∃ e ∈ t, e.1 = fd := by
  simp [isOpen]

theorem lowestFree_not_open (t : FdTable) : isOpen t (lowestFree t) = false := by
  unfold lowestFree
  cases h : (List.range (t.length + 1)).find? (fun fd => !isOpen t fd) with
  | some fd =>
    have := List.find?_some h
    simpa using this
  | none =>
    exfalso
    have hall : ∀ x ∈ List.range (t.length + 1), isOpen t x = true := by
      intro x hx
      have := List.find?_eq_none.1 h x hx
      simpa using this
    have hsub : Finset.range (t.length + 1) ⊆ (t.map Prod.fst).toFinset := by
      intro x hx
      have hx2 : x ∈ List.range (t.length + 1) := by
        simpa using hx
      obtain ⟨e, he, rfl⟩ := (isOpen_iff t x).1 (hall x hx2)
      simp only [List.mem_toFinset, List.mem_map]
      exact ⟨e, he, rfl⟩
    have h1 := Finset.card_le_card hsub
    have h2 : (t.map Prod.fst).toFinset.card ≤ (t.map Prod.fst).length := List.toFinset_card_le _
    simp at h1 h2
    omega

theorem not_open_forall {t : FdTable} {fd : Nat} (h : isOpen t fd = false) :
    ∀ e ∈ t, e.1 ≠ fd := by
  intro e he hfd
  have := (isOpen_iff t fd).2 ⟨e, he, hfd⟩
  rw [h] at this
  cases this

theorem filter_ne_of_not_open {t : FdTable} {fd : Nat} (h : isOpen t fd = false) :
    t.filter (fun e => e.1 != fd) = t := by
  apply List.filter_eq_self.2
  intro e he
  simpa using not_open_forall h e he

theorem isOpen_append (t u : FdTable) (fd : Nat) :
    isOpen (t ++ u) fd = (isOpen t fd || isOpen u fd) := by
  simp [isOpen]

theorem mem_sysClose {t : FdTable} {fd : Nat} {e : Nat × Res} (h : e ∈ (sysClose t fd).1) :
    e ∈ t ∧ e.1 ≠ fd := by
  unfold sysClose at h
  by_cases ho : isOpen t fd = true
  · simp only [ho, if_true, List.mem_filter] at h
    exact ⟨h.1, by simpa using h.2⟩
  · have ho2 : isOpen t fd = false := by simpa using ho
    simp only [ho2] at h
    exact ⟨h, not_open_forall ho2 e h⟩

theorem mem_sysDup2 {t : FdTable} {o n : Nat} {e : Nat × Res} (h : e ∈ sysDup2 t o n) :
    e ∈ t ∨ e.1 = n := by
  unfold sysDup2 at h
  cases hl : t.lookup o with
  | none => rw [hl] at h; exact Or.inl h
  | some r =>
    rw [hl] at h
    by_cases hon : o = n
    · simp only [hon, if_true] at h
      exact Or.inl h
    · simp only [hon, if_false, List.mem_cons, List.mem_filter] at h
      rcases h with h | h
      · exact Or.inr (by rw [h])
      · exact Or.inl h.1

theorem close_of_open (st : PipeState) (fd : Nat) (h : isOpen st.fds fd = true) :
    st.close fd = { st with fds := st.fds.filter (fun e => e.1 != fd) } := by
  simp [PipeState.close, sysClose, h]

theorem childTable_pipeEnds (t : FdTable) (in_fd : Option Nat) (pipefd : Option (Nat × Nat))
    (e : Nat × Res) (he : e ∈ childTable t in_fd pipefd) :
    (e.1 = 0 ∨ e.1 = 1) ∨
      (e ∈ t ∧ (∀ fd, in_fd = some fd → e.1 ≠ fd) ∧
        (∀ r w, pipefd = some (r, w) → e.1 ≠ r ∧ e.1 ≠ w)) := by
  unfold childTable at he
  have h1 : ∀ x, x ∈ (match in_fd with
      | none => t
      | some fd => (sysClose (sysDup2 t fd 0) fd).1) →
      x.1 = 0 ∨ (x ∈ t ∧ ∀ fd, in_fd = some fd → x.1 ≠ fd) := by
    intro x hx
    cases in_fd with
    | none => exact Or.inr ⟨hx, by intro fd h; cases h⟩
    | some fd =>
      obtain ⟨hx1, hx2⟩ := mem_sysClose hx
      rcases mem_sysDup2 hx1 with h | h
      · exact Or.inr ⟨h, by intro fd2 h2; cases h2; exact hx2⟩
      · exact Or.inl h
  cases pipefd with
  | none =>
    rcases h1 e he with h | ⟨h, h2⟩
    · exact Or.inl (Or.inl h)
    · exact Or.inr ⟨h, h2, by intro r w hrw; cases hrw⟩
  | some rw =>
    obtain ⟨r, w⟩ := rw
    obtain ⟨hx1, hx2⟩ := mem_sysClose he
    rcases mem_sysDup2 hx1 with h | h
    · obtain ⟨hx3, hx4⟩ := mem_sysClose h
      rcases h1 e hx3 with h5 | ⟨h5, h6⟩
      · exact Or.inl (Or.inl h5)
      · exact Or.inr ⟨h5, h6, by intro r2 w2 hrw; cases hrw; exact ⟨hx4, hx2⟩⟩
    · exact Or.inl (Or.inr h)

theorem set_pids (l : List (Option Nat)) (k : Nat) (pid : Nat) :
    (l ++ List.replicate (k + 1) none).set l.length (some pid)
      = (l ++ [some pid]) ++ List.replicate k none := by
  induction l with
  | nil => simp [List.replicate_succ]
  | cons a l ih => simpa using ih

theorem pipelineStage_step (os : PipeOS) (fds0 : FdTable) (n i pid : Nat) (cmd a : List Char)
    (args : List (List Char)) (st : PipeState)
    (hinh : ∀ e ∈ fds0, e.2.isPipe = false)
    (hpipe : os.pipeOk i = true) (hfork : os.forkResult i = some pid)
    (hs : split_args cmd = .ok (a :: args)) (hi : i < n) (hinv : PipeInv fds0 n i st) :
    ∃ st1, pipelineStage os n i cmd st = .ok (st1, true) ∧ PipeInv fds0 n (i + 1) st1 := by
  obtain ⟨hfds, hbad, hpids, hlen, hch⟩ := hinv
  simp only [hi, if_true] at hfds
  obtain ⟨k, hk⟩ : ∃ k, n - i = k + 1 := ⟨n - i - 1, by omega⟩
  have hk2 : n - (i + 1) = k := by omega
  have hpids2 : st.pids.set i (some pid)
      = (st.children.map (fun c => some c.pid) ++ [some pid]) ++ List.replicate k none := by
    rw [hpids, hk]
    have := set_pids (st.children.map (fun c => some c.pid)) k pid
    simpa [hlen] using this
  -- the descriptor table of the shell before the stage: the initial table and the kept read end
  obtain ⟨kept, hkept, hkeptfd, hkeptpipe⟩ :
      ∃ kept : FdTable, st.fds = fds0 ++ kept ∧
        (∀ e ∈ kept, st.in_fd = some e.1 ∧ isOpen fds0 e.1 = false) ∧
        (match st.in_fd with
          | none => kept = []
          | some fd => ∃ j, kept = [(fd, Res.pipeRead j)]) := by
    cases hin : st.in_fd with
    | none =>
      rw [hin] at hfds
      exact ⟨[], by simpa using hfds, by simp, rfl⟩
    | some fd =>
      rw [hin] at hfds
      obtain ⟨hfree, j, hj⟩ := hfds
      exact ⟨[(fd, Res.pipeRead j)], hj, by simp [hfree], ⟨j, rfl⟩⟩
  by_cases hlast : i + 1 < n
  · -- a stage that is not the last one
    have hr := lowestFree_not_open st.fds
    have hw := lowestFree_not_open (st.fds ++ [(lowestFree st.fds, Res.pipeRead i)])
    generalize hrdef : lowestFree st.fds = r at hr hw
    generalize hwdef : lowestFree (st.fds ++ [(r, Res.pipeRead i)]) = w at hw
    rw [hkept] at hr hw
    simp only [isOpen_append, Bool.or_eq_false_iff] at hr hw
    obtain ⟨hr0, hrk⟩ := hr
    obtain ⟨⟨hw0, hwk⟩, hwr⟩ := hw
    have hwr2 : w ≠ r := by
      intro e
      simp [isOpen, e] at hwr
    refine ⟨{ fds := fds0 ++ [(r, Res.pipeRead i)], in_fd := some r
              pids := st.pids.set i (some pid)
              children := st.children ++
                [{ stage := i, pid := pid, argv := a :: args
                   fds := childTable (st.fds ++ [(r, Res.pipeRead i)] ++ [(w, Res.pipeWrite i)])
                     st.in_fd (some (r, w)) }]
              badCloses := [] }, ?_, ?_⟩
    · have hne : ¬ (i + 1 < n ∧ os.pipeOk i = false) := by simp [hpipe]
      have hfw : fds0.filter (fun e => e.1 != w) = fds0 := filter_ne_of_not_open hw0
      have hrw : r ≠ w := Ne.symm hwr2
      simp only [pipelineStage, hne, if_false, hlast, if_true, hs, hfork, sysPipe, hrdef, hwdef]
      cases hin : st.in_fd with
      | none =>
        rw [hin] at hkeptpipe
        subst hkeptpipe
        simp only [List.append_nil] at hkept
        have ho : isOpen (fds0 ++ [(r, Res.pipeRead i), (w, Res.pipeWrite i)]) w = true := by
          simp [isOpen]
        simp [PipeState.close, sysClose, hkept, ho, hbad, hin, hfw, hrw, hpipe]
      | some fd =>
        rw [hin] at hkeptpipe
        obtain ⟨j, hj⟩ := hkeptpipe
        subst hj
        have hfd0 : isOpen fds0 fd = false := (hkeptfd _ (List.mem_singleton.2 rfl)).2
        have hff : fds0.filter (fun e => e.1 != fd) = fds0 := filter_ne_of_not_open hfd0
        have hrfd : r ≠ fd := by
          intro e
          simp [isOpen, e] at hrk
        have hwfd : w ≠ fd := by
          intro e
          simp [isOpen, e] at hwk
        have ho1 : isOpen (fds0 ++ [(fd, Res.pipeRead j), (r, Res.pipeRead i), (w, Res.pipeWrite i)]) fd
            = true := by
          simp [isOpen]
        have ho2 : isOpen (fds0 ++ [(r, Res.pipeRead i), (w, Res.pipeWrite i)]) w = true := by
          simp [isOpen]
        simp [PipeState.close, sysClose, hkept, ho1, ho2, hbad, hin, hfw, hff, hrw, hrfd, hwfd, hpipe]
    · refine ⟨?_, rfl, ?_, by simp [hlen], ?_⟩
      · simp only [hlast, if_true]
        exact ⟨hr0, i, rfl⟩
      · simp only [hpids2, hk2, List.map_append, List.map_cons, List.map_nil]
      · intro c hc e he
        rcases List.mem_append.1 hc with hc | hc
        · exact hch c hc e he
        · simp only [List.mem_singleton] at hc
          subst hc
          simp only [pipeEnds, List.mem_filter] at he
          obtain ⟨he1, he2⟩ := he
          rcases childTable_pipeEnds _ _ _ e he1 with h | ⟨hmem, hnin, hnp⟩
          · exact h
          · exfalso
            obtain ⟨hner, hnew⟩ := hnp r w rfl
            rw [hkept] at hmem
            simp only [List.mem_append, List.mem_singleton] at hmem
            rcases hmem with ((hm | hm) | hm) | hm
            · rw [hinh e hm] at he2
              cases he2
            · exact hnin e.1 (hkeptfd e hm).1 rfl
            · exact hner (by rw [hm])
            · exact hnew (by rw [hm])
  · -- the last stage
    have hn : i + 1 = n := by omega
    have hne : ¬ (i + 1 < n ∧ os.pipeOk i = false) := by simp [hlast]
    refine ⟨{ fds := fds0, in_fd := st.in_fd
              pids := st.pids.set i (some pid)
              children := st.children ++
                [{ stage := i, pid := pid, argv := a :: args
                   fds := childTable st.fds st.in_fd none }]
              badCloses := [] }, ?_, ?_⟩
    · simp only [pipelineStage, hne, if_false, hlast, hs, hfork]
      cases hin : st.in_fd with
      | none =>
        rw [hin] at hkeptpipe
        subst hkeptpipe
        simp only [List.append_nil] at hkept
        simp [hkept, hbad, hin]
      | some fd =>
        rw [hin] at hkeptpipe
        obtain ⟨j, hj⟩ := hkeptpipe
        subst hj
        have hfd0 : isOpen fds0 fd = false := (hkeptfd _ (List.mem_singleton.2 rfl)).2
        have hff : fds0.filter (fun e => e.1 != fd) = fds0 := filter_ne_of_not_open hfd0
        have ho1 : isOpen (fds0 ++ [(fd, Res.pipeRead j)]) fd = true := by
          simp [isOpen]
        simp [PipeState.close, sysClose, hkept, ho1, hbad, hin, hff]
    · refine ⟨?_, rfl, ?_, by simp [hlen], ?_⟩
      · simp only [hlast, if_false]
      · simp only [hpids2, hk2, List.map_append, List.map_cons, List.map_nil]
      · intro c hc e he
        rcases List.mem_append.1 hc with hc | hc
        · exact hch c hc e he
        · simp only [List.mem_singleton] at hc
          subst hc
          simp only [pipeEnds, List.mem_filter] at he
          obtain ⟨he1, he2⟩ := he
          rcases childTable_pipeEnds _ _ _ e he1 with h | ⟨hmem, hnin, _⟩
          · exact h
          · exfalso
            rw [hkept] at hmem
            simp only [List.mem_append] at hmem
            rcases hmem with hm | hm
            · rw [hinh e hm] at he2
              cases he2
            · exact hnin e.1 (hkeptfd e hm).1 rfl

theorem pipelineLoop_ok (os : PipeOS) (fds0 : FdTable) (n : Nat)
    (hinh : ∀ e ∈ fds0, e.2.isPipe = false)
    (hpipe : ∀ i, os.pipeOk i = true) (hfork : ∀ i, ∃ pid, os.forkResult i = some pid) :
    ∀ (cmds : List (List Char)) (i : Nat) (st : PipeState), i + cmds.length = n →
      (∀ cmd ∈ cmds, ∃ a args, split_args cmd = .ok (a :: args)) → PipeInv fds0 n i st →
      ∃ st1, pipelineLoop os n i cmds st = .ok (st1, true) ∧ PipeInv fds0 n n st1 := by
  intro cmds
  induction cmds with
  | nil =>
    intro i st hn _ hinv
    simp only [List.length_nil, Nat.add_zero] at hn
    subst hn
    exact ⟨st, rfl, hinv⟩
  | cons cmd rest ih =>
    intro i st hn hne hinv
    simp only [List.length_cons] at hn
    obtain ⟨a, args, hs⟩ := hne cmd (List.mem_cons_self _ _)
    obtain ⟨pid, hpid⟩ := hfork i
    obtain ⟨st1, h1, hinv1⟩ :=
      pipelineStage_step os fds0 n i pid cmd a args st hinh (hpipe i) hpid hs (by omega) hinv
    obtain ⟨st2, h2, hinv2⟩ :=
      ih (i + 1) st1 (by omega) (fun c hc => hne c (List.mem_cons_of_mem _ hc)) hinv1
    exact ⟨st2, by simp only [pipelineLoop, h1, h2], hinv2⟩

/-- When every `pipe` and `fork` succeeds and every stage has at least one
token, `execute_pipeline` leaves the shell with the descriptor table it had, no
`close` fails, every child holds pipe ends on descriptors 0 and 1 only, and the
pids waited for are the pids of the children, in creation order. -/
theorem execute_pipeline_clean (os : PipeOS) (cmds : List (List Char)) (fds0 : FdTable)
    (hinh : ∀ e ∈ fds0, e.2.isPipe = false)
    (hpipe : ∀ i, os.pipeOk i = true) (hfork : ∀ i, ∃ pid, os.forkResult i = some pid)
    (hne : ∀ cmd ∈ cmds, ∃ a args, split_args cmd = .ok (a :: args)) :
    ∃ o, execute_pipeline os cmds fds0 = .ok o ∧ o.fds = fds0 ∧ o.badCloses = [] ∧
      o.completed = true ∧ o.waits = o.forked.map some ∧ o.forked.length = cmds.length ∧
      ∀ c ∈ o.children, ∀ e ∈ pipeEnds c.fds, e.1 = 0 ∨ e.1 = 1 := by
  have hinit : PipeInv fds0 cmds.length 0
      { fds := fds0, in_fd := none, pids := List.replicate cmds.length none, children := [],
        badCloses := [] } := by
    refine ⟨?_, rfl, by simp, rfl, by simp⟩
    by_cases h : 0 < cmds.length <;> simp [h]
  obtain ⟨st, hloop, hfds, hbad, hpids, hlen, hch⟩ :=
    pipelineLoop_ok os fds0 cmds.length hinh hpipe hfork cmds 0 _ (by simp) hne hinit
  simp only [Nat.lt_irrefl, if_false] at hfds
  refine ⟨{ fds := st.fds, children := st.children, waits := st.pids, badCloses := st.badCloses
            completed := true }, ?_, hfds, hbad, rfl, ?_, ?_, hch⟩
  · simp [execute_pipeline, hloop]
  · simp [PipeOutcome.forked, hpids]
  · simp [PipeOutcome.forked, hlen]

/-- When `fork` fails at a stage with at least one token, the turn of the loop
ends in `return` with every descriptor the shell held still open, the pipe just
allocated included, and no child created. -/
theorem pipelineStage_fork_failure (os : PipeOS) (n i : Nat) (cmd a : List Char)
    (args : List (List Char)) (st : PipeState)
    (hpipe : os.pipeOk i = true) (hfork : os.forkResult i = none)
    (hs : split_args cmd = .ok (a :: args)) :
    ∃ st1, pipelineStage os n i cmd st = .ok (st1, false) ∧ st1.children = st.children ∧
      (∀ e ∈ st.fds, e ∈ st1.fds) ∧
      (i + 1 < n → ∃ r w, (r, Res.pipeRead i) ∈ st1.fds ∧ (w, Res.pipeWrite i) ∈ st1.fds) := by
  by_cases hlast : i + 1 < n
  · refine ⟨{ st with fds := (sysPipe st.fds i).1 }, ?_, rfl, ?_, ?_⟩
    · simp [pipelineStage, hlast, hs, hfork, hpipe]
    · intro e he
      simp [sysPipe, he]
    · intro _
      exact ⟨lowestFree st.fds, lowestFree (st.fds ++ [(lowestFree st.fds, Res.pipeRead i)]),
        by simp [sysPipe], by simp [sysPipe]⟩
  · refine ⟨st, ?_, rfl, fun e he => he, fun h => absurd h hlast⟩
    simp [pipelineStage, hlast, hs, hfork]

/-! ## Supporting lemmas: `strtol` -/

theorem scanDigits_all (s : List Char) (h : ∀ c ∈ s, isDigitC c = true) (acc : Nat) :
    scanDigits s acc = (s.foldl (fun v c => 10 * v + (c.toNat - 48)) acc, []) := by
  induction s generalizing acc with
  | nil => rfl
  | cons a s ih =>
    have ha : isDigitC a = true := h a (List.mem_cons_self _ _)
    have ht : ∀ c ∈ s, isDigitC c = true := fun c hc => h c (List.mem_cons_of_mem _ hc)
    simp [scanDigits, ha, ih ht]

theorem not_space_of_digit {c : Char} (h : isDigitC c = true) :
    isSpaceC c = false ∧ c ≠ '-' ∧ c ≠ '+' := by
  simp only [isDigitC, Bool.and_eq_true, decide_eq_true_eq] at h
  refine ⟨?_, ?_, ?_⟩
  · simp only [isSpaceC, Bool.or_eq_false_iff, beq_eq_false_iff_ne, ne_eq, Bool.and_eq_false_iff,
      decide_eq_false_iff_not]
    refine ⟨?_, Or.inr (by omega)⟩
    rintro rfl
    simp at h
  · rintro rfl
    simp at h
  · rintro rfl
    simp at h

/-- On a non-empty string of decimal digits `strtol` parses the whole string
and returns its decimal value, replaced by `LONG_MAX` when it is too large. -/
theorem strtol_digits (c : Char) (s : List Char) (h : ∀ x ∈ c :: s, isDigitC x = true) :
    strtol (c :: s)
      = (clampLong ((c :: s).foldl (fun v x => 10 * v + (x.toNat - 48)) 0 : Nat), []) := by
  have hc : isDigitC c = true := h c (List.mem_cons_self _ _)
  obtain ⟨h1, h2, h3⟩ := not_space_of_digit hc
  have hsc := scanDigits_all (c :: s) h 0
  simp [strtol, skipSpaceC, h1, h2, h3, hc, hsc]

/-! ## The tokenizer: claims C9 and C10 -/

/-- Within the capacity of the argument array the tokenizer does what its
contract says.  Every command string has a decomposition into blanks, quoted
sections and unquoted runs of non-blank characters, and whenever the
decomposition has at most `MAX_ARGS - 1 = 255` tokens, `split_args` returns
exactly these tokens in order: a quoted section without its delimiters and with
its blanks kept, an unquoted run as it stands. -/
theorem split_args_tokens (cmd : List Char) :
    (∃ toks, Lex cmd toks) ∧
      ∀ toks, Lex cmd toks → toks.length < MAX_ARGS → split_args cmd = .ok toks := by
  refine ⟨lex_total cmd.length cmd (Nat.le_refl _), ?_⟩
  intro toks h hn
  have := split_args_loop_lex h (cmd.length + 1) [] (Nat.lt_succ_self _) (by simpa using hn)
  simpa [split_args] using this

/-- The example of the specification: the string made of `echo`, a double-quoted
`a b` and `c` yields exactly the three tokens `echo`, `a b`, `c`. -/
theorem split_args_echo_example :
    Lex ("echo ".toList ++ DQUOTE :: ("a b".toList ++ DQUOTE :: " c".toList))
        ["echo".toList, "a b".toList, "c".toList] ∧
      split_args ("echo ".toList ++ DQUOTE :: ("a b".toList ++ DQUOTE :: " c".toList))
        = .ok ["echo".toList, "a b".toList, "c".toList] :=
  have h : Lex ("echo ".toList ++ DQUOTE :: ("a b".toList ++ DQUOTE :: " c".toList))
      ["echo".toList, "a b".toList, "c".toList] :=
    Lex.word [] 'e' ['c', 'h', 'o'] ' ' _ _ (by decide) (by decide) (by decide) (by decide)
      (by decide)
      (Lex.quoted [] DQUOTE ['a', ' ', 'b'] [' ', 'c'] _ (by decide) (by decide) (by decide)
        (Lex.lastWord [' '] 'c' [] (by decide) (by decide) (by decide) (by decide)))
  ⟨h, (split_args_tokens _).2 _ h (by decide)⟩

/-- Claim C9 fails on the code: the command string of 257 one-letter words
(513 characters, which a line of `main` can hold) has 257 unquoted runs, and
`split_args` cannot return them in its array of 256 slots: the store of the
257th token, `argv[argc++] = tok` with `argc = 256`, is outside the array.  The
missing test of `argc` is the defect of claim C10. -/
theorem split_args_no_tokens_for_257_words :
    (wordsLine 256).length ≤ MAX_LINE - 1 ∧
      Lex (wordsLine 256) (List.replicate 257 ['a']) ∧
      split_args (wordsLine 256) = .error (.outOfBounds 256) ∧
      split_args (wordsLine 256) ≠ .ok (List.replicate 257 ['a']) := by
  have h : split_args (wordsLine 256) = .error (.outOfBounds 256) :=
    split_args_overflow _ _ (lex_wordsLine 256) (by decide)
  exact ⟨by decide, lex_wordsLine 256, h, by rw [h]; exact fun e => Except.noConfusion e⟩

/-- Claim C10 fails on the code: the input line of 256 one-letter words (511
characters and the newline, well below `MAX_LINE`) is a single stage, so `main`
passes it to `split_args`, which stores 256 tokens in slots 0 to 255 and then
writes the terminating NULL to slot 256, outside the array of `MAX_ARGS` slots. -/
theorem split_args_out_of_bounds_from_main :
    (wordsLine 255 ++ [LF]).length ≤ MAX_LINE - 1 ∧
      mainLine (wordsLine 255 ++ [LF]) = .single (wordsLine 255) ∧
      Lex (wordsLine 255) (List.replicate 256 ['a']) ∧
      split_args (wordsLine 255) = .error (.outOfBounds MAX_ARGS) :=
  ⟨by decide, by decide, lex_wordsLine 255,
    split_args_overflow _ _ (lex_wordsLine 255) (by decide)⟩

/-! ## The pipeline splitter: claim C8 -/

/-- Claim C8, as amended.  For every input line the main loop splits the line,
without its leading and trailing spaces, tabs, line feeds and carriage returns,
at every `|` character, quoted or not: the stages are the first 128 non-empty
pieces between the `|` characters, each without its leading and trailing spaces,
tabs, line feeds and carriage returns, so that no stage starts or ends with one
of these four characters.  The hypothesis delimits the strings the line buffer
of `main` can hold, the only ones the definitions stand for. -/
theorem mainStages_splits_at_every_bar (line : List Char) (_hline : InputLine line) :
    mainStages line
        = (((List.splitOn '|' (stripSpaces line)).filter (· ≠ [])).take 128).map stripSpaces ∧
      ∀ st ∈ mainStages line, Trimmed st := by
  have hbar : BAR = '|' := rfl
  have htrim : trim = stripSpaces := funext trim_eq_stripSpaces
  have h : mainStages line
      = (((List.splitOn '|' (stripSpaces line)).filter (· ≠ [])).take 128).map stripSpaces := by
    have := stagesLoop_pieces (MAX_CMDS + 1) (trim line) [] (by simp) (by simp)
    rw [hbar, htrim] at this
    simpa [mainStages, htrim, hbar, MAX_CMDS] using this
  refine ⟨h, ?_⟩
  intro st hst
  rw [h] at hst
  obtain ⟨t, _, rfl⟩ := List.mem_map.1 hst
  rw [← trim_eq_stripSpaces]
  exact trimmed_trim t

/-- Claim C8, as amended, on the line `ls -l | wc`: the stages are `ls -l` and
`wc`, without the spaces around the delimiter and without the line feed. -/
theorem mainStages_splits_at_every_bar_witness :
    InputLine ("ls -l | wc".toList ++ [LF]) ∧
      mainStages ("ls -l | wc".toList ++ [LF]) = ["ls -l".toList, "wc".toList] ∧
      ∀ st ∈ mainStages ("ls -l | wc".toList ++ [LF]), Trimmed st :=
  ⟨by decide, by decide,
    (mainStages_splits_at_every_bar ("ls -l | wc".toList ++ [LF]) (by decide)).2⟩

/-- Claim C8 as stated fails in each respect the amended claim changes.  The
line made of `echo` and a double-quoted `a|b` is split inside the quotes into
two stages, where splitting at the unquoted delimiters gives one.  The line
`ls||wc` gives two stages, where splitting exactly at the delimiters gives three
(the empty piece between the delimiters is dropped).  A line of 129 one-letter
stages gives 128 stages.  A line that starts with a vertical tab gives a stage
that starts with this white space character. -/
theorem mainStages_not_unquoted_split :
    (mainStages ("echo ".toList ++ DQUOTE :: ("a|b".toList ++ [DQUOTE]))
        = ["echo ".toList ++ [DQUOTE, 'a'], ['b', DQUOTE]] ∧
      stagesUnquoted ("echo ".toList ++ DQUOTE :: ("a|b".toList ++ [DQUOTE]))
        = ["echo ".toList ++ DQUOTE :: ("a|b".toList ++ [DQUOTE])]) ∧
    (mainStages "ls||wc".toList = ["ls".toList, "wc".toList] ∧
      stagesUnquoted "ls||wc".toList = ["ls".toList, [], "wc".toList]) ∧
    ((barsLine 128).length ≤ MAX_LINE - 1 ∧ (mainStages (barsLine 128)).length = 128 ∧
      (stagesUnquoted (barsLine 128)).length = 129) ∧
    (mainStages (VT :: "ls".toList) = [VT :: "ls".toList] ∧ isSpaceC VT = true ∧
      stagesUnquoted (VT :: "ls".toList) = ["ls".toList]) := by
  refine ⟨⟨by decide, by decide⟩, ⟨by decide, by decide⟩, ⟨by decide, by decide, by decide⟩,
    ⟨by decide, by decide, by decide⟩⟩

/-! ## The profiler: claims C5, C6 and C7 -/

/-- Claim C7.  On every malformed argument vector `handle_miprof` does nothing
but write one message to the error stream: no event of its run is a call of
`fork`, `fopen`, `clock_gettime`, `alarm` or `wait4`, a log record or a report
on standard output. -/
theorem handle_miprof_malformed_no_execution (os : ProfOS) (argv : List (List Char))
    (h : Malformed argv) :
    (∃ msg, handle_miprof os argv = [Event.stderr msg]) ∧
      ∀ e ∈ handle_miprof os argv, e.isExecution = false := by
  have key : ∃ msg, handle_miprof os argv = [Event.stderr msg] := by
    cases h with
    | noSubcommand => exact ⟨_, rfl⟩
    | ejecNoCommand => exact ⟨_, rfl⟩
    | ejecsaveNoFile => exact ⟨_, rfl⟩
    | ejecsaveNoCommand file => exact ⟨_, rfl⟩
    | maxtiempoNoSeconds => exact ⟨_, rfl⟩
    | maxtiempoBadSeconds secs rest h =>
      have hbad : (strtol secs).2 ≠ [] ∨ (strtol secs).1 ≤ 0 := by
        by_cases h2 : (strtol secs).2 = []
        · right
          by_contra hpos
          exact h ⟨h2, by omega⟩
        · exact Or.inl h2
      refine ⟨.maxtiempoBadSeconds, ?_⟩
      have h1 : MAXTIEMPO ≠ EJEC := by decide
      have h2 : MAXTIEMPO ≠ EJECSAVE := by decide
      simp only [handle_miprof, h1, h2, if_false, if_true, if_pos hbad]
    | maxtiempoNoCommand secs =>
      have h1 : MAXTIEMPO ≠ EJEC := by decide
      have h2 : MAXTIEMPO ≠ EJECSAVE := by decide
      by_cases hbad : (strtol secs).2 ≠ [] ∨ (strtol secs).1 ≤ 0
      · exact ⟨.maxtiempoBadSeconds, by
          simp only [handle_miprof, h1, h2, if_false, if_true, if_pos hbad]⟩
      · exact ⟨.maxtiempoNoCommand, by
          simp only [handle_miprof, h1, h2, if_false, if_true, if_neg hbad]⟩
    | unknownSubcommand sub rest h =>
      exact ⟨.unknownOption sub, by simp only [handle_miprof, h.1, h.2.1, h.2.2, if_false]⟩
  refine ⟨key, ?_⟩
  obtain ⟨msg, hmsg⟩ := key
  intro e he
  rw [hmsg] at he
  simp only [List.mem_singleton] at he
  rw [he]
  rfl

/-- Claim C7 at `maxtiempo abc ls`: the seconds are not numeric, nothing runs. -/
theorem handle_miprof_malformed_no_execution_witness :
    Malformed [MAXTIEMPO, ['a', 'b', 'c'], ['l', 's']] ∧
      ((∃ msg, handle_miprof ⟨true, some 4242, true, 0, true⟩
          [MAXTIEMPO, ['a', 'b', 'c'], ['l', 's']] = [Event.stderr msg]) ∧
        ∀ e ∈ handle_miprof ⟨true, some 4242, true, 0, true⟩
          [MAXTIEMPO, ['a', 'b', 'c'], ['l', 's']], e.isExecution = false) :=
  ⟨Malformed.maxtiempoBadSeconds _ _ (by decide),
    handle_miprof_malformed_no_execution ⟨true, some 4242, true, 0, true⟩ _
      (Malformed.maxtiempoBadSeconds _ _ (by decide))⟩

/-- An argument vector that is not malformed makes `handle_miprof` run: its
first event is a call of `clock_gettime` or of `fopen`. -/
theorem handle_miprof_wellformed_runs (os : ProfOS) (argv : List (List Char))
    (h : ¬ Malformed argv) :
    ∃ e rest, handle_miprof os argv = e :: rest ∧ e.isExecution = true := by
  match argv with
  | [] => exact absurd Malformed.noSubcommand h
  | sub :: rest =>
    by_cases h1 : sub = EJEC
    · subst h1
      match rest with
      | [] => exact absurd Malformed.ejecNoCommand h
      | cmd :: args =>
        cases hf : os.forkResult <;>
          simp [handle_miprof, execute_and_profile, hf, Event.isExecution]
    · by_cases h2 : sub = EJECSAVE
      · subst h2
        match rest with
        | [] => exact absurd Malformed.ejecsaveNoFile h
        | [f] => exact absurd (Malformed.ejecsaveNoCommand f) h
        | f :: cmd :: args =>
          cases hf : os.fopenOk <;> simp [handle_miprof, h1, hf, Event.isExecution]
      · by_cases h3 : sub = MAXTIEMPO
        · subst h3
          match rest with
          | [] => exact absurd Malformed.maxtiempoNoSeconds h
          | [secs] => exact absurd (Malformed.maxtiempoNoCommand secs) h
          | secs :: cmd :: args =>
            have hv : ValidSeconds secs := by
              by_contra hv
              exact h (Malformed.maxtiempoBadSeconds secs _ hv)
            have hgood : ¬ ((strtol secs).2 ≠ [] ∨ (strtol secs).1 ≤ 0) := by
              rintro (hb | hb)
              · exact hb hv.1
              · have := hv.2
                omega
            cases hf : os.forkResult <;>
              simp [handle_miprof, h1, h2, hgood, execute_and_profile, hf, Event.isExecution]
        · exact absurd (Malformed.unknownSubcommand sub rest ⟨h1, h2, h3⟩) h

/-- Claim C5 fails on the code: when `fork` fails, each of the three
sub-commands still prints the report to standard output, from variables that
`execute_and_profile` never assigned (no log record is written). -/
theorem handle_miprof_reports_after_fork_failure (clockOk waitOk : Bool) (waitStatus : Int) :
    handle_miprof ⟨clockOk, none, waitOk, waitStatus, true⟩ [EJEC, ['l', 's']]
        = (execute_and_profile ⟨clockOk, none, waitOk, waitStatus, true⟩ [['l', 's']] 0 false).events
            ++ [Event.report false] ∧
      Event.report false ∈
        handle_miprof ⟨clockOk, none, waitOk, waitStatus, true⟩ [EJEC, ['l', 's']] ∧
      Event.report false ∈
        handle_miprof ⟨clockOk, none, waitOk, waitStatus, true⟩ [EJECSAVE, ['f'], ['l', 's']] ∧
      Event.report false ∈
        handle_miprof ⟨clockOk, none, waitOk, waitStatus, true⟩ [MAXTIEMPO, ['5'], ['l', 's']] ∧
      Event.logRecord [['l', 's']] ∉
        handle_miprof ⟨clockOk, none, waitOk, waitStatus, true⟩ [EJECSAVE, ['f'], ['l', 's']] := by
  have h1 : EJECSAVE ≠ EJEC := by decide
  have h2 : MAXTIEMPO ≠ EJEC := by decide
  have h3 : MAXTIEMPO ≠ EJECSAVE := by decide
  have h4 : ¬ ((strtol ['5']).2 ≠ [] ∨ (strtol ['5']).1 ≤ 0) := by decide
  refine ⟨rfl, ?_, ?_, ?_, ?_⟩
  · simp [handle_miprof, execute_and_profile]
  · simp [handle_miprof, execute_and_profile, h1]
  · simp [handle_miprof, execute_and_profile, h2, h3, h4]
  · cases clockOk <;> simp [handle_miprof, execute_and_profile, h1]

/-- When `fork` succeeds the report is printed from assigned variables. -/
theorem handle_miprof_ejec_reports (os : ProfOS) (pid : Nat) (cmd : List Char)
    (args : List (List Char)) (h : os.forkResult = some pid) :
    Event.report true ∈ handle_miprof os (EJEC :: cmd :: args) := by
  simp [handle_miprof, execute_and_profile, h]

/-- When `fork` fails, each of the three sub-commands with well-formed arguments
prints the report from unassigned variables, and writes no log record. -/
theorem handle_miprof_fork_failure (os : ProfOS) (hfork : os.forkResult = none) :
    (∀ cmd args, Event.report false ∈ handle_miprof os (EJEC :: cmd :: args)) ∧
    (∀ file cmd args, os.fopenOk = true →
      Event.report false ∈ handle_miprof os (EJECSAVE :: file :: cmd :: args) ∧
      ∀ a, Event.logRecord a ∉ handle_miprof os (EJECSAVE :: file :: cmd :: args)) ∧
    (∀ secs cmd args, ValidSeconds secs →
      Event.report false ∈ handle_miprof os (MAXTIEMPO :: secs :: cmd :: args)) := by
  have h1 : EJECSAVE ≠ EJEC := by decide
  have h2 : MAXTIEMPO ≠ EJEC := by decide
  have h3 : MAXTIEMPO ≠ EJECSAVE := by decide
  refine ⟨?_, ?_, ?_⟩
  · intro cmd args
    simp [handle_miprof, execute_and_profile, hfork]
  · intro file cmd args hopen
    constructor
    · simp [handle_miprof, execute_and_profile, hfork, h1, hopen]
    · intro a
      cases hc : os.clockOk <;> simp [handle_miprof, execute_and_profile, hfork, h1, hopen, hc]
  · intro secs cmd args hv
    have hgood : ¬ ((strtol secs).2 ≠ [] ∨ (strtol secs).1 ≤ 0) := by
      rintro (hb | hb)
      · exact hb hv.1
      · have := hv.2
        omega
    simp [handle_miprof, execute_and_profile, hfork, h2, h3, hgood]

/-- Claim C6 fails on the code: the seconds `4294967296` (that is `2^32`) pass
the validation, the narrowing to `int` makes them 0, and the command runs with
no alarm armed; the seconds `4294967301` arm an alarm of 5 seconds. -/
theorem maxtiempo_large_seconds_not_enforced :
    ValidSeconds "4294967296".toList ∧
      (strtol "4294967296".toList).1 = 2 ^ 32 ∧
      handle_miprof ⟨true, some 4242, true, 0, true⟩
          [MAXTIEMPO, "4294967296".toList, "sleep".toList, "100".toList]
        = [.clock, .fork ["sleep".toList, "100".toList], .setTarget 4242, .sigaction,
            .wait4 4242, .alarm 0, .setTarget 0, .clock, .report true] ∧
      Event.alarm 5 ∈ handle_miprof ⟨true, some 4242, true, 0, true⟩
          [MAXTIEMPO, "4294967301".toList, "sleep".toList, "100".toList] := by
  refine ⟨by decide, by decide, by decide, by decide⟩

/-- For accepted seconds below `2^31` the alarm is armed with exactly the
seconds given. -/
theorem maxtiempo_small_seconds_arms_alarm (os : ProfOS) (pid : Nat) (secs cmd : List Char)
    (args : List (List Char)) (hf : os.forkResult = some pid) (hv : ValidSeconds secs)
    (hs : (strtol secs).1 < 2 ^ 31) :
    Event.alarm (strtol secs).1.toNat ∈ handle_miprof os (MAXTIEMPO :: secs :: cmd :: args) := by
  have h1 : MAXTIEMPO ≠ EJEC := by decide
  have h2 : MAXTIEMPO ≠ EJECSAVE := by decide
  have hgood : ¬ ((strtol secs).2 ≠ [] ∨ (strtol secs).1 ≤ 0) := by
    rintro (hb | hb)
    · exact hb hv.1
    · have := hv.2
      omega
  have hcast : toInt32 (strtol secs).1 = (strtol secs).1 := by
    have := hv.2
    unfold toInt32
    omega
  have hpos : (strtol secs).1 > 0 := hv.2
  simp [handle_miprof, h1, h2, hgood, execute_and_profile, hf, hcast, hpos]

/-- For accepted seconds of `2^31` or more, `alarm` is never called with the
seconds given. -/
theorem maxtiempo_large_seconds_never_armed (os : ProfOS) (secs cmd : List Char)
    (args : List (List Char)) (hv : ValidSeconds secs) (hs : 2 ^ 31 ≤ (strtol secs).1) :
    Event.alarm (strtol secs).1.toNat ∉ handle_miprof os (MAXTIEMPO :: secs :: cmd :: args) := by
  have h1 : MAXTIEMPO ≠ EJEC := by decide
  have h2 : MAXTIEMPO ≠ EJECSAVE := by decide
  have hgood : ¬ ((strtol secs).2 ≠ [] ∨ (strtol secs).1 ≤ 0) := by
    rintro (hb | hb)
    · exact hb hv.1
    · have := hv.2
      omega
  have hcast : toInt32 (strtol secs).1 < 2 ^ 31 := by
    unfold toInt32
    omega
  have hne : (strtol secs).1.toNat ≠ (toInt32 (strtol secs).1).toNat := by
    omega
  have hne0 : (strtol secs).1.toNat ≠ 0 := by
    omega
  cases hf : os.forkResult <;> cases hc : os.clockOk <;> cases hw : os.waitOk <;>
    simp [handle_miprof, h1, h2, hgood, execute_and_profile, hf, hc, hw, hne, hne0]

/-! ## The timeout: claim C1 -/

/-- Claim C1 fails on the code: with a timeout of 1 second, if the child
terminates and `wait4` reaps it before the alarm expires, the state right after
`wait4` has the child reaped, the alarm still pending and `child_to_kill` still
equal to the pid; an alarm delivered there, before `alarm(0)` runs, makes
`on_sigalrm` send SIGKILL to the reaped pid. -/
theorem sigalrm_after_reap_kills_reaped_pid :
    run 4242 1 [.parent, .parent, .parent, .childExit, .parent] TState.init
        = some { pc := .cancel, child_to_kill := 4242, alarmPending := true,
                 childExited := true, reaped := true, kills := [] } ∧
      run 4242 1 [.parent, .parent, .parent, .childExit, .parent, .sigalrm] TState.init
        = some { pc := .cancel, child_to_kill := 4242, alarmPending := false,
                 childExited := true, reaped := true, kills := [(4242, true)] } :=
  ⟨by decide, by decide⟩

/-- For every pid and every positive timeout the window exists: right after
`wait4` the child is reaped, the alarm pending and `child_to_kill` still set. -/
theorem alarm_pending_after_reap (pid : Nat) (timeout_seconds : Int) (h : 0 < timeout_seconds) :
    run pid timeout_seconds [.parent, .parent, .parent, .childExit, .parent] TState.init
      = some { pc := .cancel, child_to_kill := pid, alarmPending := true,
               childExited := true, reaped := true, kills := [] } := by
  simp [run, step, TState.init, h]

/-- Once the parent is past `child_to_kill = 0` no further signal is sent: the
alarm is cancelled and the target cleared. -/
theorem no_kill_after_done (pid : Nat) (timeout_seconds : Int) (a : Action) (s s' : TState)
    (hpc : s.pc = .done) (hal : s.alarmPending = false)
    (hstep : step pid timeout_seconds a s = some s') : s'.kills = s.kills := by
  cases a with
  | parent => simp [step, hpc] at hstep
  | childExit =>
    simp only [step] at hstep
    split at hstep
    · simp at hstep
    · simp only [Option.some.injEq] at hstep
      rw [← hstep]
  | sigalrm => simp [step, hal] at hstep

/-! ## The pipeline: claims C2, C3 and C4 -/

/-- A pipeline of three non-empty stages on which every call succeeds: the
shell ends with the descriptor table it started with, no `close` fails, each
child holds pipe ends only on its standard input and output, and the pids
waited for are the pids created, in order. -/
theorem execute_pipeline_three_stages :
    execute_pipeline allOk ["ls".toList, "grep x".toList, "wc".toList] stdTable
      = .ok { fds := stdTable
              children :=
                [ { stage := 0, pid := 100, argv := ["ls".toList]
                    fds := [(1, .pipeWrite 0), (0, .inherited 0), (2, .inherited 2)] },
                  { stage := 1, pid := 101, argv := ["grep".toList, "x".toList]
                    fds := [(1, .pipeWrite 1), (0, .pipeRead 0), (2, .inherited 2)] },
                  { stage := 2, pid := 102, argv := ["wc".toList]
                    fds := [(0, .pipeRead 1), (1, .inherited 1), (2, .inherited 2)] } ]
              waits := [some 100, some 101, some 102]
              badCloses := []
              completed := true } := by
  decide

/-- Claim C2 fails on the code: the line `ls | |` gives the two stages `ls` and
the empty string; every `pipe` and `fork` succeeds, the last stage is skipped,
and the shell returns with the read end of the pipe of stage 0 still open on
descriptor 3. -/
theorem execute_pipeline_leaks_read_end :
    mainLine ("ls | |".toList ++ [LF]) = .pipeline ["ls".toList, []] ∧
      Except.map (fun o => o.fds) (execute_pipeline allOk ["ls".toList, []] stdTable)
        = .ok (stdTable ++ [(3, .pipeRead 0)]) ∧
      Except.map (fun o => pipeEnds o.fds) (execute_pipeline allOk ["ls".toList, []] stdTable)
        = .ok [(3, .pipeRead 0)] := by
  refine ⟨by decide, by decide, by decide⟩

/-- Claim C3 fails on the code: when `fork` fails at stage 0 of `ls | wc`, the
function returns at once; both ends of the pipe just allocated stay open in the
shell (no `close` was called), and no child was created. -/
theorem execute_pipeline_fork_failure_closes_nothing :
    execute_pipeline (forkFailsAt 0) ["ls".toList, "wc".toList] stdTable
        = .ok { fds := stdTable ++ [(3, .pipeRead 0), (4, .pipeWrite 0)]
                children := [], waits := [], badCloses := [], completed := false } ∧
      Except.map (fun o => pipeEnds o.fds)
          (execute_pipeline (forkFailsAt 1) ["ls".toList, "grep x".toList, "wc".toList] stdTable)
        = .ok [(3, .pipeRead 0), (4, .pipeRead 1), (5, .pipeWrite 1)] := by
  refine ⟨by decide, by decide⟩

/-- Claim C4 fails on the code: when the middle stage of `ls | | wc` is skipped,
`waitpid` is called three times, the second time with the slot of `pids` that
was never assigned, while two processes were created; and when `fork` fails at
stage 1 of `ls | wc`, the process created at stage 0 is not waited for. -/
theorem execute_pipeline_waits_differ_from_forked :
    mainLine ("ls | | wc".toList ++ [LF]) = .pipeline ["ls".toList, [], "wc".toList] ∧
      Except.map (fun o => (o.forked, o.waits))
          (execute_pipeline allOk ["ls".toList, [], "wc".toList] stdTable)
        = .ok ([100, 102], [some 100, none, some 102]) ∧
      Except.map (fun o => (o.forked, o.waits))
          (execute_pipeline (forkFailsAt 1) ["ls".toList, "wc".toList] stdTable)
        = .ok ([100], []) := by
  refine ⟨by decide, by decide, by decide⟩

end Mishell
